import Mathlib

/-!
Verification development for the `mapstore-go` repository: a shallow
embedding of the path navigator (`internal/maputil`), the file store's
flush / SetAll machinery, the directory store's cross-partition listing,
the FTS query sanitizer and the FTS sync protocol, together with theorems
settling the specification claims.

Go `map[string]any` documents are modelled as association lists of
`String × Value`; Go `error` results become `Except`; machine state
touched by I/O (files, temp files, stat results) is modelled explicitly.
-/

namespace Mapstore

/-! ## Path navigator (`internal/maputil/maputil.go`)

A document value: string, number, boolean, null, sequence or nested
mapping.  Go's `map[string]any` is modelled as an association list. -/

inductive Value where
  | null : Value
  | bool (b : Bool) : Value
  | num (n : Int) : Value
  | str (s : String) : Value
  | arr (xs : List Value) : Value
  | map (m : List (String × Value)) : Value

/-- Error kinds surfaced by `NavigateToParentMap` and its callers:
`emptyPath` models `errors.New("empty path received")`, `keyNotFound`
models `*KeyNotFoundError`, `notAMap` models the
`fmt.Errorf("path ... is not a map")` errors. -/
inductive NavErr where
  | emptyPath : NavErr
  | keyNotFound : NavErr
  | notAMap : NavErr
deriving DecidableEq, Repr

/-- Go map read `m[k]` (first matching entry of the association list). -/
def lookupEntry {α : Type} : List (String × α) → String → Option α
  | [], _ => none
  | p :: rest, k => if p.1 = k then some p.2 else lookupEntry rest k

/-- Go map write `m[k] = v` for a key already present: replace the
(first) entry for `k` in place. -/
def setEntry {α : Type} : List (String × α) → String → α → List (String × α)
  | [], _, _ => []
  | p :: rest, k, v => if p.1 = k then (k, v) :: rest else p :: setEntry rest k v

/-- Go `delete(m, k)`. -/
def eraseEntry {α : Type} (m : List (String × α)) (k : String) : List (String × α) :=
  m.filter (fun p => p.1 ≠ k)

/-- `GetValueAtPath`'s navigation: walk intermediate keys checking
map-ness before each lookup, then read the terminal key from the parent
map (missing terminal key is `keyNotFound`, mirroring
`parentMap[lastKey]` with `ok == false`). -/
def getNav (v : Value) : List String → Except NavErr Value
  | [] => .error .emptyPath
  | [k] =>
      match v with
      | .map m =>
          match lookupEntry m k with
          | some x => .ok x
          | none => .error .keyNotFound
      | _ => .error .notAMap
  | k :: k₂ :: rest =>
      match v with
      | .map m =>
          match lookupEntry m k with
          | some child => getNav child (k₂ :: rest)
          | none => .error .keyNotFound
      | _ => .error .notAMap

/-- `maputil.GetValueAtPath`. -/
def GetValueAtPath (doc : Value) (keys : List String) : Except NavErr Value :=
  if keys.isEmpty then .error .emptyPath else getNav doc keys

/-- The navigation-plus-delete performed by `DeleteValueAtPath`:
`NavigateToParentMap(data, keys, false)` followed by deleting the
terminal key from the parent map.  In Go the parent map is mutated
through a reference; here the updated document is rebuilt along the
path with `setEntry`. -/
def deleteNav (v : Value) : List String → Except NavErr Value
  | [] => .error .emptyPath
  | [k] =>
      match v with
      | .map m => .ok (.map (eraseEntry m k))
      | _ => .error .notAMap
  | k :: k₂ :: rest =>
      match v with
      | .map m =>
          match lookupEntry m k with
          | some child => (deleteNav child (k₂ :: rest)).map (fun c => .map (setEntry m k c))
          | none => .error .keyNotFound
      | _ => .error .notAMap

/-- `maputil.DeleteValueAtPath`: a `KeyNotFoundError` from navigation is
swallowed (delete of a missing path is a no-op); other navigation
errors are surfaced. -/
def DeleteValueAtPath (doc : Value) (keys : List String) : Except NavErr Value :=
  match deleteNav doc keys with
  | .ok v => .ok v
  | .error .keyNotFound => .ok doc
  | .error e => .error e

/-! Helper lemmas about association-list operations. -/

theorem eraseEntry_of_lookup_none {α : Type} {m : List (String × α)} {k : String}
    (h : lookupEntry m k = none) : eraseEntry m k = m := by
  induction m with
  | nil => rfl
  | cons p rest ih =>
      rw [lookupEntry] at h
      by_cases hk : p.1 = k
      · rw [if_pos hk] at h; exact absurd h (by simp)
      · rw [if_neg hk] at h
        simp only [eraseEntry, List.filter_cons]
        have hd : (decide (p.1 ≠ k)) = true := by simpa using hk
        rw [hd]
        simp only [if_true]
        exact congrArg (p :: ·) (ih h)

theorem setEntry_of_lookup_some {α : Type} {m : List (String × α)} {k : String} {v : α}
    (h : lookupEntry m k = some v) : setEntry m k v = m := by
  induction m with
  | nil => simp [lookupEntry] at h
  | cons p rest ih =>
      simp only [lookupEntry] at h
      by_cases hk : p.1 = k
      · simp only [hk, if_pos rfl] at h
        cases h
        simp [setEntry, if_pos hk.symm, ← hk]
      · simp only [if_neg hk] at h
        simp [setEntry, hk, ih h]

theorem lookupEntry_setEntry_self {α : Type} {m : List (String × α)} {k : String} {v w : α}
    (h : lookupEntry m k = some w) : lookupEntry (setEntry m k v) k = some v := by
  induction m with
  | nil => simp [lookupEntry] at h
  | cons p rest ih =>
      simp only [lookupEntry] at h
      by_cases hk : p.1 = k
      · simp [setEntry, hk, lookupEntry]
      · simp only [if_neg hk] at h
        simp [setEntry, hk, lookupEntry, ih h]

theorem setEntry_setEntry {α : Type} {m : List (String × α)} (k : String) (v w : α) :
    setEntry (setEntry m k v) k w = setEntry m k w := by
  induction m with
  | nil => rfl
  | cons p rest ih =>
      by_cases hk : p.1 = k
      · simp [setEntry, hk]
      · simp [setEntry, hk, ih]

theorem eraseEntry_eraseEntry {α : Type} (m : List (String × α)) (k : String) :
    eraseEntry (eraseEntry m k) k = m.filter (fun p => p.1 ≠ k) := by
  simp [eraseEntry, List.filter_filter]

theorem lookupEntry_eraseEntry_self {α : Type} (m : List (String × α)) (k : String) :
    lookupEntry (eraseEntry m k) k = none := by
  induction m with
  | nil => rfl
  | cons p rest ih =>
      by_cases hk : p.1 = k
      · simpa [eraseEntry, List.filter, hk] using ih
      · simpa [eraseEntry, List.filter, hk, lookupEntry] using ih

theorem eraseEntry_idem {α : Type} (m : List (String × α)) (k : String) :
    eraseEntry (eraseEntry m k) k = eraseEntry m k := by
  simp [eraseEntry, List.filter_filter]

/-- If navigation-for-read fails with `keyNotFound`, delete navigation on
the same path either rebuilds the document unchanged (terminal key
absent from an existing parent map) or fails with `keyNotFound` itself
(an intermediate key is absent). -/
theorem getNav_keyNotFound_deleteNav (ks : List String) :
    ∀ (v : Value), getNav v ks = .error .keyNotFound →
      deleteNav v ks = .ok v ∨ deleteNav v ks = .error .keyNotFound := by
  induction ks with
  | nil => intro v h; simp [getNav] at h
  | cons k rest ih =>
      intro v h
      cases rest with
      | nil =>
          cases v with
          | map m =>
              simp only [getNav] at h
              cases hl : lookupEntry m k with
              | some x => rw [hl] at h; simp at h
              | none =>
                  left
                  simp [deleteNav, eraseEntry_of_lookup_none hl]
          | null => simp [getNav] at h
          | bool b => simp [getNav] at h
          | num n => simp [getNav] at h
          | str s => simp [getNav] at h
          | arr xs => simp [getNav] at h
      | cons k₂ rest₂ =>
          cases v with
          | map m =>
              simp only [getNav] at h
              cases hl : lookupEntry m k with
              | none =>
                  right
                  simp [deleteNav, hl]
              | some child =>
                  rw [hl] at h
                  simp only [] at h
                  rcases ih child h with h₂ | h₂
                  · left
                    simp [deleteNav, hl, h₂, Except.map, setEntry_of_lookup_some hl]
                  · right
                    simp [deleteNav, hl, h₂, Except.map]
          | null => simp [getNav] at h
          | bool b => simp [getNav] at h
          | num n => simp [getNav] at h
          | str s => simp [getNav] at h
          | arr xs => simp [getNav] at h

/-- A successful delete navigation is stable: running it again on the
result either reproduces the result or reports the (now removed) key as
not found. -/
theorem deleteNav_idem (ks : List String) :
    ∀ (v v' : Value), deleteNav v ks = .ok v' →
      deleteNav v' ks = .ok v' ∨ deleteNav v' ks = .error .keyNotFound := by
  induction ks with
  | nil => intro v v' h; simp [deleteNav] at h
  | cons k rest ih =>
      intro v v' h
      cases rest with
      | nil =>
          cases v with
          | map m =>
              simp only [deleteNav] at h
              cases h
              left
              simp [deleteNav, eraseEntry_idem]
          | null => simp [deleteNav] at h
          | bool b => simp [deleteNav] at h
          | num n => simp [deleteNav] at h
          | str s => simp [deleteNav] at h
          | arr xs => simp [deleteNav] at h
      | cons k₂ rest₂ =>
          cases v with
          | map m =>
              simp only [deleteNav] at h
              cases hl : lookupEntry m k with
              | none => rw [hl] at h; simp at h
              | some child =>
                  rw [hl] at h
                  simp only [] at h
                  cases hd : deleteNav child (k₂ :: rest₂) with
                  | error e => rw [hd] at h; simp [Except.map] at h
                  | ok child' =>
                      rw [hd] at h
                      simp only [Except.map] at h
                      cases h
                      rcases ih child child' hd with h₂ | h₂
                      · left
                        simp [deleteNav, lookupEntry_setEntry_self hl, h₂,
                          Except.map, setEntry_setEntry]
                      · right
                        simp [deleteNav, lookupEntry_setEntry_self hl, h₂, Except.map]
          | null => simp [deleteNav] at h
          | bool b => simp [deleteNav] at h
          | num n => simp [deleteNav] at h
          | str s => simp [deleteNav] at h
          | arr xs => simp [deleteNav] at h

/-- C9 (corrected): the claim as stated is false — `DeleteValueAtPath`
fails when an existing intermediate node on the path is not a mapping,
even though the terminal key does not exist there.  Concretely, on the
document `{"a": 5}` the path `["a","b"]` has no value (lookup fails),
yet delete returns the path-not-a-map error instead of succeeding. -/
theorem c9_counterexample :
    GetValueAtPath (.map [("a", .num 5)]) ["a", "b"] = .error .notAMap ∧
    DeleteValueAtPath (.map [("a", .num 5)]) ["a", "b"] = .error .notAMap := by
  exact ⟨rfl, rfl⟩

/-- C9 (amended): if lookup of the path fails with a missing key (rather
than a non-mapping intermediate), `DeleteValueAtPath` succeeds and
returns the document unchanged; and delete is idempotent — whenever
`DeleteValueAtPath` succeeds, running it again on the result succeeds
and leaves the result unchanged. -/
theorem c9_deleteKey_noop_and_idempotent :
    (∀ (doc : Value) (keys : List String),
        GetValueAtPath doc keys = .error .keyNotFound →
        DeleteValueAtPath doc keys = .ok doc) ∧
    (∀ (doc doc' : Value) (keys : List String),
        DeleteValueAtPath doc keys = .ok doc' →
        DeleteValueAtPath doc' keys = .ok doc') := by
  constructor
  · intro doc keys h
    rw [GetValueAtPath] at h
    by_cases hk : keys.isEmpty
    · rw [if_pos hk] at h; simp at h
    · rw [if_neg hk] at h
      rcases getNav_keyNotFound_deleteNav keys doc h with h₂ | h₂ <;>
        simp [DeleteValueAtPath, h₂]
  · intro doc doc' keys h
    rw [DeleteValueAtPath] at h
    cases hd : deleteNav doc keys with
    | ok v =>
        rw [hd] at h
        simp only [] at h
        cases h
        rcases deleteNav_idem keys doc doc' hd with h₂ | h₂ <;>
          simp [DeleteValueAtPath, h₂]
    | error e =>
        rw [hd] at h
        cases e with
        | keyNotFound =>
            simp only [] at h
            cases h
            simp [DeleteValueAtPath, hd]
        | emptyPath => simp at h
        | notAMap => simp at h

/-- Witness for C9: delete of an absent terminal key on `{"x": 1}`
leaves the document unchanged, and delete is idempotent after removing
the present key `"x"`. -/
theorem c9_witness :
    DeleteValueAtPath (.map [("x", .num 1)]) ["y"] = .ok (.map [("x", .num 1)]) ∧
    DeleteValueAtPath (.map []) ["x"] = .ok (.map []) :=
  ⟨c9_deleteKey_noop_and_idempotent.1 (.map [("x", .num 1)]) ["y"] rfl,
   c9_deleteKey_noop_and_idempotent.2 (.map [("x", .num 1)]) (.map []) ["x"] rfl⟩

/-! ## File store `SetAll` retry loop (`store_directory.go`, `MapFileStore.SetAll`)

`SetAll` is modelled over a stream of per-attempt outcomes: each attempt
runs `setAll` (replace the document, then `flushUnlocked` when
`autoFlush` is on); a `flushConflict` outcome additionally records
whether the subsequent `store.load()` reload succeeds.  All other
mutating operations call `flushUnlocked` at most once and are modelled
by `mutateWithSingleFlush`. -/

/-- Go constant `maxSetAllRetries`. -/
def maxSetAllRetries : Nat := 3

/-- Outcome of one `setAll` attempt as seen by the retry loop.
`flushConflict reloadOk` is `flushUnlocked` returning `ErrFileConflict`,
with `reloadOk` the success of the `store.load()` that follows. -/
inductive AttemptOutcome where
  | flushOk : AttemptOutcome
  | flushConflict (reloadOk : Bool) : AttemptOutcome
  | flushOther : AttemptOutcome
deriving DecidableEq, Repr

/-- Result surfaced by `SetAll`. -/
inductive SetAllResult where
  | ok : SetAllResult
  | conflictAfterRetries : SetAllResult
  | reloadFailed : SetAllResult
  | otherError : SetAllResult
deriving DecidableEq, Repr

/-- The `for range maxSetAllRetries` loop of `SetAll`: attempt `i` uses
`attempts i`; success returns; a non-conflict error returns immediately;
a conflict reloads and retries; exhaustion surfaces `ErrFileConflict`.
Returns the result together with the number of flush attempts used. -/
def setAllLoop (attempts : Nat → AttemptOutcome) : Nat → Nat → SetAllResult × Nat
  | _, 0 => (.conflictAfterRetries, 0)
  | i, remaining + 1 =>
      match attempts i with
      | .flushOk => (.ok, 1)
      | .flushOther => (.otherError, 1)
      | .flushConflict reloadOk =>
          if reloadOk then
            let r := setAllLoop attempts (i + 1) remaining
            (r.1, r.2 + 1)
          else (.reloadFailed, 1)

/-- `MapFileStore.SetAll` (with non-nil data): the retry loop started at
attempt 0 with `maxSetAllRetries` budget. -/
def SetAll (attempts : Nat → AttemptOutcome) : SetAllResult × Nat :=
  setAllLoop attempts 0 maxSetAllRetries

/-- Result of a mutating operation that flushes (at most) once. -/
inductive MutateResult where
  | ok : MutateResult
  | errConflict : MutateResult
  | errOther : MutateResult
deriving DecidableEq, Repr

/-- `SetKey` / `DeleteKey` / `Reset` / `Flush`: the in-memory mutation
followed by a single `flushUnlocked` call (skipped when `autoFlush` is
off for `SetKey`/`DeleteKey`; `Reset` and `Flush` always flush).  Any
flush error — including `ErrFileConflict` — is returned immediately.
Returns the result and the number of flush attempts used. -/
def mutateWithSingleFlush (autoFlush : Bool) (attempt : AttemptOutcome) :
    MutateResult × Nat :=
  if autoFlush then
    match attempt with
    | .flushOk => (.ok, 1)
    | .flushConflict _ => (.errConflict, 1)
    | .flushOther => (.errOther, 1)
  else (.ok, 0)

theorem setAllLoop_used_le (attempts : Nat → AttemptOutcome) :
    ∀ (remaining i : Nat), (setAllLoop attempts i remaining).2 ≤ remaining := by
  intro remaining
  induction remaining with
  | zero => intro i; simp [setAllLoop]
  | succ n ih =>
      intro i
      cases h : attempts i with
      | flushOk => simp [setAllLoop, h]
      | flushOther => simp [setAllLoop, h]
      | flushConflict reloadOk =>
          cases reloadOk with
          | true =>
              simp only [setAllLoop, h, if_true]
              have := ih (i + 1)
              omega
          | false => simp [setAllLoop, h]

/-- C4 (confirmed): `SetAll` retries only on `FileConflict`, making at
most three flush attempts in total; three consecutive conflicts (with
successful reloads) surface `FileConflict`; a non-conflict error on any
attempt is returned immediately without a further attempt; and every
other mutating operation performs at most one flush attempt and reports
a conflict on that attempt immediately instead of retrying. -/
theorem c4_setAll_retries :
    (∀ attempts : Nat → AttemptOutcome, (SetAll attempts).2 ≤ maxSetAllRetries) ∧
    (∀ attempts : Nat → AttemptOutcome,
        attempts 0 = .flushConflict true →
        attempts 1 = .flushConflict true →
        attempts 2 = .flushConflict true →
        SetAll attempts = (.conflictAfterRetries, 3)) ∧
    (∀ attempts : Nat → AttemptOutcome,
        attempts 0 = .flushOther →
        SetAll attempts = (.otherError, 1)) ∧
    (∀ (attempts : Nat → AttemptOutcome) (k : Nat),
        k < maxSetAllRetries →
        (∀ j, j < k → attempts j = .flushConflict true) →
        attempts k = .flushOk →
        SetAll attempts = (.ok, k + 1)) ∧
    (∀ (autoFlush : Bool) (attempt : AttemptOutcome),
        (mutateWithSingleFlush autoFlush attempt).2 ≤ 1) ∧
    (∀ (reloadOk : Bool),
        mutateWithSingleFlush true (.flushConflict reloadOk) = (.errConflict, 1)) := by
  refine ⟨fun attempts => setAllLoop_used_le attempts maxSetAllRetries 0,
    fun attempts h0 h1 h2 => ?_, fun attempts h0 => ?_,
    fun attempts k hk hconf hok => ?_, fun autoFlush attempt => ?_,
    fun reloadOk => rfl⟩
  · simp [SetAll, maxSetAllRetries, setAllLoop, h0, h1, h2]
  · simp [SetAll, maxSetAllRetries, setAllLoop, h0]
  · simp only [maxSetAllRetries] at hk
    interval_cases k
    · simp [SetAll, maxSetAllRetries, setAllLoop, hok]
    · simp [SetAll, maxSetAllRetries, setAllLoop, hconf 0 (by omega), hok]
    · simp [SetAll, maxSetAllRetries, setAllLoop, hconf 0 (by omega),
        hconf 1 (by omega), hok]
  · cases autoFlush with
    | false => simp [mutateWithSingleFlush]
    | true => cases attempt <;> simp [mutateWithSingleFlush]

/-- Witness for C4: with conflict-conflict-success attempts, `SetAll`
succeeds on the third attempt; a store whose first flush conflicts and
a `SetKey`-style single-flush mutation reports the conflict at once. -/
theorem c4_witness :
    (SetAll (fun i => if i < 2 then .flushConflict true else .flushOk)).2 ≤
        maxSetAllRetries ∧
    SetAll (fun _ => .flushConflict true) = (.conflictAfterRetries, 3) ∧
    SetAll (fun _ => .flushOther) = (.otherError, 1) ∧
    SetAll (fun i => if i < 2 then .flushConflict true else .flushOk) = (.ok, 3) ∧
    (mutateWithSingleFlush true .flushOk).2 ≤ 1 ∧
    mutateWithSingleFlush true (.flushConflict true) = (.errConflict, 1) :=
  ⟨c4_setAll_retries.1 _,
   c4_setAll_retries.2.1 _ rfl rfl rfl,
   c4_setAll_retries.2.2.1 _ rfl,
   c4_setAll_retries.2.2.2.1 _ 2 (by decide) (fun j hj => by interval_cases j <;> rfl) rfl,
   c4_setAll_retries.2.2.2.2.1 true .flushOk,
   c4_setAll_retries.2.2.2.2.2 true⟩

/-! ## File store flush (`store_directory.go`, `MapFileStore.flushUnlocked`)

The on-disk state visible to one flush call is the target file (with its
stat identity) and the freshly named temp file.  OS and codec failures
are injected through `FlushEnv`; the two recursive encode passes over
the document copy are a `Value → Except Unit Value` parameter.  The
final `rememberStat` is modelled as succeeding: sequentially, the stat
of the just-renamed file cannot fail. -/

/-- Stat identity of a file: `os.SameFile` (device/inode), size and
modification time, as compared by `isSameFileInfo`. -/
structure FileInfo where
  inode : Nat
  size : Nat
  mtime : Nat
deriving DecidableEq, Repr

/-- `isSameFileInfo`: both non-nil, same inode, same size, same mtime. -/
def isSameFileInfo : Option FileInfo → Option FileInfo → Bool
  | some a, some b => a.inode == b.inode && a.size == b.size && a.mtime == b.mtime
  | _, _ => false

/-- The target file as it exists on disk: its encoded content and its
stat identity. -/
structure FileRec where
  content : Value
  info : FileInfo

/-- Disk state touched by one flush: the target path and the (uniquely
named) temp file.  `tmp = some none` is a created-but-empty temp file,
`tmp = some (some v)` holds the encoded document `v`. -/
structure FlushWorld where
  target : Option FileRec
  tmp : Option (Option Value)

/-- Injected outcomes of the OS calls made by `flushUnlocked`. -/
structure FlushEnv where
  /-- `os.Stat` on the target fails with a non-`IsNotExist` error. -/
  statFails : Bool
  /-- the `os.OpenFile(..., O_WRONLY, 0)` permission probe succeeds. -/
  openWriteOk : Bool
  /-- `os.MkdirAll` on the parent directory succeeds. -/
  mkdirOk : Bool
  /-- `os.Create` of the temp file succeeds. -/
  createTmpOk : Bool
  /-- `fileEncoderDecoder.Encode` into the temp file succeeds. -/
  writeTmpOk : Bool
  /-- `os.Rename(tmp, target)` succeeds. -/
  renameOk : Bool
  /-- stat identity of the renamed file (recorded by `rememberStat`). -/
  newInfo : FileInfo

/-- Errors surfaced by `flushUnlocked`; `conflict` is `ErrFileConflict`,
`codecPipeline` a value/key encode pipeline failure, the rest wrap the
corresponding OS errors. -/
inductive FlushErr where
  | codecPipeline : FlushErr
  | conflict : FlushErr
  | statFailed : FlushErr
  | permDenied : FlushErr
  | mkdirFailed : FlushErr
  | createFailed : FlushErr
  | encodeFailed : FlushErr
  | renameFailed : FlushErr
deriving DecidableEq, Repr

/-- `MapFileStore.flushUnlocked`: deep-copy and pipeline-encode the
document, run the optimistic CAS check against the remembered snapshot,
then write the encoded bytes to a temp file and rename it over the
target.  Returns the flush outcome (with the new snapshot on success)
and the resulting disk state. -/
def flushUnlocked (encodePipeline : Value → Except Unit Value) (doc : Value)
    (lastStat : Option FileInfo) (env : FlushEnv) (w : FlushWorld) :
    Except FlushErr FileInfo × FlushWorld :=
  match encodePipeline doc with
  | .error _ => (.error .codecPipeline, w)
  | .ok enc =>
      let casError : Option FlushErr :=
        match lastStat with
        | none => none
        | some _ =>
            if env.statFails then some .statFailed
            else
              match w.target with
              | some f =>
                  if isSameFileInfo (some f.info) lastStat then
                    if env.openWriteOk then none else some .permDenied
                  else some .conflict
              | none => some .conflict
      match casError with
      | some e => (.error e, w)
      | none =>
          if env.mkdirOk then
            if env.createTmpOk then
              let w₁ : FlushWorld := { w with tmp := some none }
              if env.writeTmpOk then
                let w₂ : FlushWorld := { w₁ with tmp := some (some enc) }
                if env.renameOk then
                  (.ok env.newInfo,
                    { target := some ⟨enc, env.newInfo⟩, tmp := none })
                else (.error .renameFailed, { w₂ with tmp := none })
              else (.error .encodeFailed, { w₁ with tmp := none })
            else (.error .createFailed, w)
          else (.error .mkdirFailed, w)

/-- The current on-disk target differs from the remembered snapshot
under the same-file predicate, size or mtime, or the file is missing. -/
def targetDiffersOrMissing (lastStat : Option FileInfo) (w : FlushWorld) : Prop :=
  match w.target with
  | some f => isSameFileInfo (some f.info) lastStat = false
  | none => True

/-- C3 (corrected counterexample): a store holding a remembered snapshot
whose on-disk file has changed, but whose value-encode pipeline fails:
flush fails with the codec error, not with `FileConflict`, so the
claimed "if and only if" does not hold as stated. -/
theorem c3_counterexample :
    (flushUnlocked (fun _ => .error ()) (.map []) (some ⟨1, 10, 100⟩)
        ⟨false, true, true, true, true, true, ⟨1, 30, 300⟩⟩
        ⟨some ⟨.map [], ⟨1, 20, 200⟩⟩, none⟩).1 = .error .codecPipeline ∧
    targetDiffersOrMissing (some ⟨1, 10, 100⟩) ⟨some ⟨.map [], ⟨1, 20, 200⟩⟩, none⟩ := by
  exact ⟨rfl, rfl⟩

/-- C3 (amended): provided the encode pipeline succeeds and `os.Stat`
itself does not fail, a flush on a store holding a remembered snapshot
fails with `FileConflict` iff the on-disk file differs from the
snapshot (same-file predicate, size, mtime) or is missing; and
unconditionally, a `FileConflict` from flush implies a remembered
snapshot existed and the file differed or was missing.  In particular a
stale observer of a concurrently rewritten file gets `FileConflict`. -/
theorem c3_flush_conflict_iff :
    (∀ (encodePipeline : Value → Except Unit Value) (doc : Value)
        (s : FileInfo) (env : FlushEnv) (w : FlushWorld),
        (encodePipeline doc).isOk = true →
        env.statFails = false →
        ((flushUnlocked encodePipeline doc (some s) env w).1 = .error .conflict ↔
          targetDiffersOrMissing (some s) w)) ∧
    (∀ (encodePipeline : Value → Except Unit Value) (doc : Value)
        (lastStat : Option FileInfo) (env : FlushEnv) (w : FlushWorld),
        (flushUnlocked encodePipeline doc lastStat env w).1 = .error .conflict →
        lastStat.isSome = true ∧ targetDiffersOrMissing lastStat w) := by
  constructor
  · intro encodePipeline doc s env w hok hstat
    cases henc : encodePipeline doc with
    | error e => rw [henc] at hok; simp [Except.isOk, Except.toBool] at hok
    | ok enc =>
        cases htgt : w.target with
        | none =>
            constructor
            · intro _; simp [targetDiffersOrMissing, htgt]
            · intro _; simp [flushUnlocked, henc, hstat, htgt]
        | some f =>
            by_cases hsame : isSameFileInfo (some f.info) (some s) = true
            · constructor
              · intro hres
                by_cases hperm : env.openWriteOk
                · by_cases hm : env.mkdirOk
                  · by_cases hc : env.createTmpOk
                    · by_cases hw : env.writeTmpOk
                      · by_cases hr : env.renameOk
                        · simp [flushUnlocked, henc, hstat, htgt, hsame, hperm,
                            hm, hc, hw, hr] at hres
                        · simp [flushUnlocked, henc, hstat, htgt, hsame, hperm,
                            hm, hc, hw, hr] at hres
                      · simp [flushUnlocked, henc, hstat, htgt, hsame, hperm,
                          hm, hc, hw] at hres
                    · simp [flushUnlocked, henc, hstat, htgt, hsame, hperm,
                        hm, hc] at hres
                  · simp [flushUnlocked, henc, hstat, htgt, hsame, hperm, hm] at hres
                · simp [flushUnlocked, henc, hstat, htgt, hsame, hperm] at hres
              · intro hdiff
                simp [targetDiffersOrMissing, htgt, hsame] at hdiff
            · constructor
              · intro _
                simp [targetDiffersOrMissing, htgt]
                simpa using hsame
              · intro _
                simp [flushUnlocked, henc, hstat, htgt, hsame]
  · intro encodePipeline doc lastStat env w hres
    cases henc : encodePipeline doc with
    | error e => simp [flushUnlocked, henc] at hres
    | ok enc =>
        cases lastStat with
        | none =>
            exfalso
            by_cases hm : env.mkdirOk
            · by_cases hc : env.createTmpOk
              · by_cases hw : env.writeTmpOk
                · by_cases hr : env.renameOk
                  · simp [flushUnlocked, henc, hm, hc, hw, hr] at hres
                  · simp [flushUnlocked, henc, hm, hc, hw, hr] at hres
                · simp [flushUnlocked, henc, hm, hc, hw] at hres
              · simp [flushUnlocked, henc, hm, hc] at hres
            · simp [flushUnlocked, henc, hm] at hres
        | some s =>
            refine ⟨rfl, ?_⟩
            by_cases hstat : env.statFails
            · simp [flushUnlocked, henc, hstat] at hres
            · cases htgt : w.target with
              | none => simp [targetDiffersOrMissing, htgt]
              | some f =>
                  by_cases hsame : isSameFileInfo (some f.info) (some s) = true
                  · exfalso
                    by_cases hperm : env.openWriteOk
                    · by_cases hm : env.mkdirOk
                      · by_cases hc : env.createTmpOk
                        · by_cases hw : env.writeTmpOk
                          · by_cases hr : env.renameOk
                            · simp [flushUnlocked, henc, hstat, htgt, hsame,
                                hperm, hm, hc, hw, hr] at hres
                            · simp [flushUnlocked, henc, hstat, htgt, hsame,
                                hperm, hm, hc, hw, hr] at hres
                          · simp [flushUnlocked, henc, hstat, htgt, hsame,
                              hperm, hm, hc, hw] at hres
                        · simp [flushUnlocked, henc, hstat, htgt, hsame,
                            hperm, hm, hc] at hres
                      · simp [flushUnlocked, henc, hstat, htgt, hsame,
                          hperm, hm] at hres
                    · simp [flushUnlocked, henc, hstat, htgt, hsame, hperm] at hres
                  · simp [targetDiffersOrMissing, htgt]
                    simpa using hsame

/-- Witness for C3: the OCC scenario — a stale snapshot (older mtime and
size than the rewritten on-disk file) makes flush fail with
`FileConflict`, with a working pipeline and working OS calls. -/
theorem c3_witness :
    (flushUnlocked (fun v => .ok v) (.map []) (some ⟨1, 10, 100⟩)
        ⟨false, true, true, true, true, true, ⟨1, 30, 300⟩⟩
        ⟨some ⟨.map [], ⟨1, 20, 200⟩⟩, none⟩).1 = .error .conflict :=
  (c3_flush_conflict_iff.1 (fun v => .ok v) (.map []) ⟨1, 10, 100⟩
      ⟨false, true, true, true, true, true, ⟨1, 30, 300⟩⟩
      ⟨some ⟨.map [], ⟨1, 20, 200⟩⟩, none⟩ rfl rfl).2 rfl

/-- C5 (confirmed): whenever flush fails — pipeline codec error,
conflict, stat/permission error, mkdir/create failure, temp-encode
failure or rename failure — the target file is exactly as before the
call and no temp file remains; and when flush succeeds the target is
replaced (by the single rename) with the fully pipeline-encoded
document and the temp file is gone. -/
theorem c5_flush_leaves_target_or_replaces_atomically :
    ∀ (encodePipeline : Value → Except Unit Value) (doc : Value)
      (lastStat : Option FileInfo) (env : FlushEnv) (w : FlushWorld),
      w.tmp = none →
      (∀ e : FlushErr,
          (flushUnlocked encodePipeline doc lastStat env w).1 = .error e →
          (flushUnlocked encodePipeline doc lastStat env w).2.target = w.target ∧
          (flushUnlocked encodePipeline doc lastStat env w).2.tmp = none) ∧
      (∀ info : FileInfo,
          (flushUnlocked encodePipeline doc lastStat env w).1 = .ok info →
          ∃ enc : Value, encodePipeline doc = .ok enc ∧
            (flushUnlocked encodePipeline doc lastStat env w).2.target =
              some ⟨enc, env.newInfo⟩ ∧
            (flushUnlocked encodePipeline doc lastStat env w).2.tmp = none) := by
  intro encodePipeline doc lastStat env w htmp
  cases henc : encodePipeline doc with
  | error e₀ =>
      constructor
      · intro e hres
        constructor <;> simp [flushUnlocked, henc, htmp]
      · intro info hres
        simp [flushUnlocked, henc] at hres
  | ok enc =>
      rcases hcas : (match lastStat with
        | none => (none : Option FlushErr)
        | some _ =>
            if env.statFails then some .statFailed
            else
              match w.target with
              | some f =>
                  if isSameFileInfo (some f.info) lastStat then
                    if env.openWriteOk then none else some .permDenied
                  else some .conflict
              | none => some .conflict) with _ | e₁
      · by_cases hm : env.mkdirOk
        · by_cases hc : env.createTmpOk
          · by_cases hw : env.writeTmpOk
            · by_cases hr : env.renameOk
              · constructor
                · intro e hres
                  simp [flushUnlocked, henc, hcas, hm, hc, hw, hr] at hres
                · intro info hres
                  refine ⟨enc, rfl, ?_, ?_⟩ <;>
                    simp [flushUnlocked, henc, hcas, hm, hc, hw, hr]
              · refine ⟨fun e hres => ⟨?_, ?_⟩, fun info hres => ?_⟩ <;>
                  simp [flushUnlocked, henc, hcas, hm, hc, hw, hr] at *
            · refine ⟨fun e hres => ⟨?_, ?_⟩, fun info hres => ?_⟩ <;>
                simp [flushUnlocked, henc, hcas, hm, hc, hw] at *
          · refine ⟨fun e hres => ⟨?_, ?_⟩, fun info hres => ?_⟩ <;>
              simp [flushUnlocked, henc, hcas, hm, hc, htmp] at *
        · refine ⟨fun e hres => ⟨?_, ?_⟩, fun info hres => ?_⟩ <;>
            simp [flushUnlocked, henc, hcas, hm, htmp] at *
      · refine ⟨fun e hres => ⟨?_, ?_⟩, fun info hres => ?_⟩ <;>
          simp [flushUnlocked, henc, hcas, htmp] at *

/-- Witness for C5: with an initially clean temp slot and a failing
rename, the target is untouched and the temp file removed; with all
steps succeeding, the target holds the encoded document. -/
theorem c5_witness :
    ((flushUnlocked (fun v => .ok v) (.map [("k", .num 7)]) none
        ⟨false, true, true, true, true, false, ⟨2, 5, 50⟩⟩
        ⟨some ⟨.map [], ⟨1, 1, 1⟩⟩, none⟩).2.target = some ⟨.map [], ⟨1, 1, 1⟩⟩ ∧
      (flushUnlocked (fun v => .ok v) (.map [("k", .num 7)]) none
        ⟨false, true, true, true, true, false, ⟨2, 5, 50⟩⟩
        ⟨some ⟨.map [], ⟨1, 1, 1⟩⟩, none⟩).2.tmp = none) :=
  (c5_flush_leaves_target_or_replaces_atomically (fun v => .ok v)
      (.map [("k", .num 7)]) none
      ⟨false, true, true, true, true, false, ⟨2, 5, 50⟩⟩
      ⟨some ⟨.map [], ⟨1, 1, 1⟩⟩, none⟩ rfl).1 .renameFailed rfl

/-! ## FTS query sanitizer (`ftsengine`, `cleanQueryWithOr` and `Engine.Search`)

Characters are classified by the ASCII fragment of Go's
`unicode.IsLetter || unicode.IsNumber` (the two agree on ASCII; all
concrete inputs below are ASCII, where a one-byte token is exactly a
one-character token). -/

/-- `unicode.IsLetter(r) || unicode.IsNumber(r)`, ASCII fragment. -/
def goIsAlnum (c : Char) : Bool := c.isAlpha || c.isDigit

/-- One step of the tokenizing loop: alphanumeric runes extend the
buffer, anything else flushes the (non-empty) buffer as a token. -/
def tokenizeStep (st : List String × List Char) (c : Char) :
    List String × List Char :=
  if goIsAlnum c then (st.1, st.2 ++ [c])
  else if st.2.isEmpty then (st.1, [])
  else (st.1 ++ [String.mk st.2], [])

/-- Flush the final buffer after the loop. -/
def finishTokens (st : List String × List Char) : List String :=
  if st.2.isEmpty then st.1 else st.1 ++ [String.mk st.2]

/-- The tokenizing phase of `cleanQueryWithOr`: split the query at every
non-alphanumeric rune. -/
def tokenizeQuery (q : String) : List String :=
  finishTokens (q.data.foldl tokenizeStep ([], []))

/-- The single-byte skip test: `len(t) == 1 && !unicode.IsDigit(rune(t[0]))`
(for ASCII tokens byte length equals character count). -/
def skipSingle (t : String) : Bool :=
  match t.data with
  | [c] => !c.isDigit
  | _ => false

/-- `ftsengine.quote`: wrap in double quotes, doubling embedded ones. -/
def quoteTok (s : String) : String :=
  "\"" ++ s.replace "\"" "\"\"" ++ "\""

/-- `strings.Join(elems, sep)`. -/
def goJoin (sep : String) : List String → String
  | [] => ""
  | [x] => x
  | x :: y :: rest => x ++ sep ++ goJoin sep (y :: rest)

/-- One step of the dedup/quote loop: skip one-byte non-digit tokens,
then skip already-seen tokens, else record the token and append its
quoted form. -/
def cleanStep (st : List String × List String) (t : String) :
    List String × List String :=
  if skipSingle t then st
  else if t ∈ st.1 then st
  else (st.1 ++ [t], st.2 ++ [quoteTok t])

/-- `ftsengine.cleanQueryWithOr`: tokenize; empty token list yields "";
otherwise dedup/quote the surviving tokens and OR-join them — but if no
token survived, OR-join the raw (unquoted, undeduplicated) tokens. -/
def cleanQueryWithOr (q : String) : String :=
  let tokens := tokenizeQuery q
  if tokens.isEmpty then ""
  else
    let st := tokens.foldl cleanStep ([], [])
    if st.2.isEmpty then goJoin " OR " tokens
    else goJoin " OR " st.2

/-- The sanitizing prefix of `Engine.Search`: an empty query string is
rejected; an empty sanitized query short-circuits to the empty result
and empty continuation token; otherwise the cleaned string is passed to
the SQL `MATCH`. -/
inductive SearchOutcome where
  | emptyQueryError : SearchOutcome
  | emptyResult : SearchOutcome
  | runQuery (matchArg : String) : SearchOutcome
deriving DecidableEq, Repr

/-- `Engine.Search` up to the point where the sanitized query decides
between error, empty result, and running the SQL query. -/
def searchSanitize (query : String) : SearchOutcome :=
  if query = "" then .emptyQueryError
  else
    let cQ := cleanQueryWithOr query
    if cQ = "" then .emptyResult
    else .runQuery cQ

/-- Deduplication keeping first occurrences, with an accumulator of
already-seen tokens (the sanitization described by the spec). -/
def dedupAcc (seen : List String) : List String → List String
  | [] => []
  | t :: rest =>
      if t ∈ seen then dedupAcc seen rest
      else t :: dedupAcc (seen ++ [t]) rest

/-- The sanitization exactly as the spec sentence describes it: split on
non-alphanumeric boundaries, drop single-character tokens unless they
are digits, deduplicate, quote each token, join with OR. -/
def specSanitize (q : String) : String :=
  let kept := (tokenizeQuery q).filter (fun t => !skipSingle t)
  goJoin " OR " ((dedupAcc [] kept).map quoteTok)

theorem string_length_ne_zero {x : String} (hx : x ≠ "") : x.length ≠ 0 := by
  intro h0
  exact hx (String.ext (List.length_eq_zero.mp h0))

theorem goJoin_ne_empty {sep : String} {x : String} {xs : List String}
    (hx : x ≠ "") : goJoin sep (x :: xs) ≠ "" := by
  cases xs with
  | nil => simpa [goJoin] using hx
  | cons y rest =>
      intro h
      rw [goJoin] at h
      have hlen := congrArg String.length h
      rw [String.length_append, String.length_append] at hlen
      have h0 : ("" : String).length = 0 := rfl
      rw [h0] at hlen
      exact string_length_ne_zero hx (by omega)

theorem quoteTok_ne_empty (t : String) : quoteTok t ≠ "" := by
  intro h
  have hlen : (quoteTok t).length = 0 := by rw [h]; rfl
  rw [quoteTok, String.length_append, String.length_append] at hlen
  have h1 : ("\"" : String).length = 1 := rfl
  omega

/-- The tokenizer produces no empty tokens. -/
theorem tokenize_tokens_ne_empty (cs : List Char) :
    ∀ (toks : List String) (buf : List Char),
      (∀ t ∈ toks, t ≠ "") →
      ∀ t ∈ finishTokens (cs.foldl tokenizeStep (toks, buf)), t ≠ "" := by
  induction cs with
  | nil =>
      intro toks buf htoks t ht
      rw [List.foldl_nil] at ht
      rw [finishTokens] at ht
      by_cases hb : buf.isEmpty
      · rw [if_pos hb] at ht; exact htoks t ht
      · rw [if_neg hb] at ht
        rcases List.mem_append.mp ht with h | h
        · exact htoks t h
        · rcases List.mem_singleton.mp h with rfl
          intro hcon
          have : buf = [] := by simpa using congrArg String.data hcon
          simp [this] at hb
  | cons c cs ih =>
      intro toks buf htoks t ht
      rw [List.foldl_cons] at ht
      rw [tokenizeStep] at ht
      by_cases hc : goIsAlnum c
      · rw [if_pos hc] at ht
        exact ih toks (buf ++ [c]) htoks t ht
      · rw [if_neg hc] at ht
        by_cases hb : buf.isEmpty
        · rw [if_pos hb] at ht
          exact ih toks [] htoks t ht
        · rw [if_neg hb] at ht
          refine ih (toks ++ [String.mk buf]) [] ?_ t ht
          intro u hu
          rcases List.mem_append.mp hu with h | h
          · exact htoks u h
          · rcases List.mem_singleton.mp h with rfl
            intro hcon
            have : buf = [] := by simpa using congrArg String.data hcon
            simp [this] at hb

/-- The token list is empty iff nothing was accumulated and no
alphanumeric rune occurs in the remaining input. -/
theorem finishTokens_foldl_eq_nil (cs : List Char) :
    ∀ (toks : List String) (buf : List Char),
      (finishTokens (cs.foldl tokenizeStep (toks, buf)) = [] ↔
        (toks = [] ∧ buf = [] ∧ ∀ c ∈ cs, ¬ goIsAlnum c)) := by
  induction cs with
  | nil =>
      intro toks buf
      rw [List.foldl_nil, finishTokens]
      by_cases hb : buf.isEmpty
      · have : buf = [] := by simpa using hb
        simp [hb, this]
      · have : buf ≠ [] := by simpa using hb
        simp [hb, this]
  | cons c cs ih =>
      intro toks buf
      rw [List.foldl_cons, tokenizeStep]
      by_cases hc : goIsAlnum c
      · rw [if_pos hc]
        rw [ih toks (buf ++ [c])]
        simp [hc]
      · rw [if_neg hc]
        by_cases hb : buf.isEmpty
        · have hb' : buf = [] := by simpa using hb
          rw [if_pos hb]
          rw [ih toks []]
          simp [hc, hb']
        · have hb' : buf ≠ [] := by simpa using hb
          rw [if_neg hb]
          rw [ih (toks ++ [String.mk buf]) []]
          simp [hc, hb']

/-- The dedup/quote fold computes the quoted deduplication of the
filtered token list. -/
theorem cleanStep_foldl (l : List String) :
    ∀ (seen out : List String),
      (l.foldl cleanStep (seen, out)).2 =
        out ++ (dedupAcc seen (l.filter (fun t => !skipSingle t))).map quoteTok := by
  induction l with
  | nil => intro seen out; simp [dedupAcc]
  | cons t rest ih =>
      intro seen out
      rw [List.foldl_cons, cleanStep]
      by_cases hs : skipSingle t
      · rw [if_pos hs]
        rw [ih seen out]
        simp [hs]
      · rw [if_neg hs]
        by_cases hmem : t ∈ seen
        · rw [if_pos hmem]
          rw [ih seen out]
          simp [hs, dedupAcc, hmem]
        · rw [if_neg hmem]
          rw [ih (seen ++ [t]) (out ++ [quoteTok t])]
          simp [hs, dedupAcc, hmem]

/-- A non-empty token list always produces a non-empty cleaned query
(either the quoted survivors or the raw-token fallback). -/
theorem cleanQueryWithOr_ne_empty {q : String} (h : tokenizeQuery q ≠ []) :
    cleanQueryWithOr q ≠ "" := by
  rw [cleanQueryWithOr]
  have hne : ¬ (tokenizeQuery q).isEmpty := by simpa [List.isEmpty_iff] using h
  rw [if_neg hne]
  by_cases ho : ((tokenizeQuery q).foldl cleanStep ([], [])).2.isEmpty
  · rw [if_pos ho]
    obtain ⟨x, xs, hxx⟩ := List.exists_cons_of_ne_nil h
    rw [hxx]
    apply goJoin_ne_empty
    refine tokenize_tokens_ne_empty q.data [] [] (by simp) x ?_
    rw [← tokenizeQuery, hxx]
    exact List.mem_cons_self x xs
  · rw [if_neg ho]
    obtain ⟨x, xs, hxx⟩ :=
      List.exists_cons_of_ne_nil (by simpa [List.isEmpty_iff] using ho)
    rw [hxx]
    apply goJoin_ne_empty
    have hx : x ∈ ((tokenizeQuery q).foldl cleanStep ([], [])).2 :=
      hxx ▸ List.mem_cons_self x xs
    rw [cleanStep_foldl] at hx
    simp only [List.nil_append] at hx
    obtain ⟨u, hu, rfl⟩ := List.mem_map.mp hx
    exact quoteTok_ne_empty u

/-- C8 (corrected counterexample): on the query `"a"` the sanitization
described by the spec is empty (the single-character non-digit token is
dropped), so the claim requires `Search` to return an empty result; the
code instead falls back to the raw token and runs the SQL query with
match argument `a`. -/
theorem c8_counterexample :
    specSanitize "a" = "" ∧ cleanQueryWithOr "a" = "a" ∧
    searchSanitize "a" = .runQuery "a" := by
  refine ⟨by decide, by decide, by decide⟩

/-- C8 (amended): the cleaned query is empty exactly when the input has
no alphanumeric character at all, and then (for a non-empty input
string) `Search` short-circuits to the empty result and empty token;
when at least one token survives the single-character filter, the
cleaned query is the spec's sanitization (dedup, quote, OR-join); when
tokens exist but none survives, the raw unquoted tokens are OR-joined
instead of producing an empty query. -/
theorem c8_search_sanitizer :
    (∀ q : String, cleanQueryWithOr q = "" ↔ q.data.all (fun c => !goIsAlnum c)) ∧
    (∀ q : String, q ≠ "" → cleanQueryWithOr q = "" →
      searchSanitize q = .emptyResult) ∧
    (∀ q : String,
      ((tokenizeQuery q).filter (fun t => !skipSingle t) ≠ [] →
        cleanQueryWithOr q = specSanitize q) ∧
      (tokenizeQuery q ≠ [] →
        (tokenizeQuery q).filter (fun t => !skipSingle t) = [] →
        cleanQueryWithOr q = goJoin " OR " (tokenizeQuery q))) := by
  refine ⟨fun q => ⟨?_, ?_⟩, fun q hq hclean => ?_, fun q => ⟨?_, ?_⟩⟩
  · intro hclean
    by_contra hall
    have htok : tokenizeQuery q ≠ [] := by
      intro h0
      rw [tokenizeQuery] at h0
      have hc := (finishTokens_foldl_eq_nil q.data [] []).mp h0
      apply hall
      rw [List.all_eq_true]
      intro c hc'
      simpa using hc.2.2 c hc'
    exact cleanQueryWithOr_ne_empty htok hclean
  · intro hall
    have htok : tokenizeQuery q = [] := by
      rw [tokenizeQuery]
      refine (finishTokens_foldl_eq_nil q.data [] []).mpr ⟨rfl, rfl, ?_⟩
      intro c hc
      have := List.all_eq_true.mp hall c hc
      simpa using this
    rw [cleanQueryWithOr]
    simp [htok]
  · rw [searchSanitize, if_neg hq, hclean]
    rfl
  · intro hkept
    have htok : tokenizeQuery q ≠ [] := by
      intro h0
      rw [h0] at hkept
      simp at hkept
    rw [cleanQueryWithOr]
    have hne : ¬ (tokenizeQuery q).isEmpty := by simpa [List.isEmpty_iff] using htok
    rw [if_neg hne]
    have hout : ((tokenizeQuery q).foldl cleanStep ([], [])).2 =
        (dedupAcc [] ((tokenizeQuery q).filter (fun t => !skipSingle t))).map
          quoteTok := by
      rw [cleanStep_foldl]; simp
    obtain ⟨u, us, huu⟩ := List.exists_cons_of_ne_nil hkept
    have hdne : ((tokenizeQuery q).foldl cleanStep ([], [])).2 ≠ [] := by
      rw [hout, huu, dedupAcc]
      simp
    have ho : ¬ ((tokenizeQuery q).foldl cleanStep ([], [])).2.isEmpty := by
      simpa [List.isEmpty_iff] using hdne
    rw [if_neg ho, hout]
    rfl
  · intro htok hkept
    rw [cleanQueryWithOr]
    have hne : ¬ (tokenizeQuery q).isEmpty := by simpa [List.isEmpty_iff] using htok
    rw [if_neg hne]
    have hout : ((tokenizeQuery q).foldl cleanStep ([], [])).2 = [] := by
      rw [cleanStep_foldl, hkept]
      simp [dedupAcc]
    rw [if_pos (by simp [hout])]

/-- Witness for C8: a purely punctuation query short-circuits to the
empty result; a query with surviving tokens matches the spec's
sanitization; an all-single-character query falls back to joining the
raw tokens. -/
theorem c8_witness :
    searchSanitize "!!" = .emptyResult ∧
    cleanQueryWithOr "alpha alpha b2" = specSanitize "alpha alpha b2" ∧
    cleanQueryWithOr "a b" = goJoin " OR " (tokenizeQuery "a b") :=
  ⟨c8_search_sanitizer.2.1 "!!" (by decide) (by decide),
   (c8_search_sanitizer.2.2 "alpha alpha b2").1 (by decide),
   (c8_search_sanitizer.2.2 "a b").2 (by decide) (by decide)⟩

/-! ## FTS sync (`ftsengine/rebuild_util.go`, `SyncIterToFTS`)

The index is an association list from external id to its row (column →
text); `BatchUpsert` preserves position for existing ids and appends
new ones, `BatchDelete` filters ids out (chunking into ≤999-parameter
statements does not change the resulting index).  A sync run is the
fold of the producer's decisions through `emit`, a final flush, and the
deferred `BatchDelete`; the engine operations it would issue are
collected as a trace. -/

/-- One row of column values. -/
abbrev FtsRow := List (String × String)

/-- The virtual-table content: external id → row. -/
abbrev FtsIndex := List (String × FtsRow)

/-- Go map insert `m[k] = v`: replace if present, append if new. -/
def assocPut {α : Type} (m : List (String × α)) (k : String) (v : α) :
    List (String × α) :=
  match lookupEntry m k with
  | some _ => setEntry m k v
  | none => m ++ [(k, v)]

/-- `Engine.BatchUpsert`: insert-or-replace every doc of the batch. -/
def batchUpsert (idx : FtsIndex) (docs : List (String × FtsRow)) : FtsIndex :=
  docs.foldl (fun i d => assocPut i d.1 d.2) idx

/-- `Engine.BatchDelete`: remove every row whose external id is listed. -/
def batchDelete (idx : FtsIndex) (ids : List String) : FtsIndex :=
  idx.filter (fun p => decide (p.1 ∉ ids))

/-- `ftsengine.SyncDecision`. -/
structure SyncDecision where
  id : String
  cmpOut : String
  vals : FtsRow
  unchanged : Bool
  skip : Bool
deriving DecidableEq, Repr

/-- Mutable state of the emit loop: ids seen this pass, the pending
upsert batch, and the batches already flushed (in flush order). -/
structure SyncState where
  seen : List String
  pending : List (String × FtsRow)
  batches : List (List (String × FtsRow))
deriving DecidableEq, Repr

/-- The `emit` closure of `SyncIterToFTS`: skip decisions (and empty
ids) are dropped; seen ids are recorded; `Unchanged` writes nothing;
otherwise the compare column is set on the values, the doc is added to
the pending batch, and a full batch is flushed via `BatchUpsert`. -/
def emitStep (cmpCol : String) (batchSize : Nat) (st : SyncState)
    (dec : SyncDecision) : SyncState :=
  if dec.skip || dec.id = "" then st
  else
    let st₁ : SyncState := { st with seen := st.seen ++ [dec.id] }
    if dec.unchanged then st₁
    else
      let vals := assocPut dec.vals cmpCol dec.cmpOut
      let pending' := assocPut st₁.pending dec.id vals
      if batchSize ≤ pending'.length then
        { st₁ with pending := [], batches := st₁.batches ++ [pending'] }
      else { st₁ with pending := pending' }

/-- An engine write issued by the sync pass. -/
inductive SyncOp where
  | upsertBatch (docs : List (String × FtsRow)) : SyncOp
  | deleteBatch (ids : List String) : SyncOp
deriving DecidableEq, Repr

def SyncOp.isUpsert : SyncOp → Bool
  | .upsertBatch _ => true
  | .deleteBatch _ => false

def SyncOp.isDelete : SyncOp → Bool
  | .upsertBatch _ => false
  | .deleteBatch _ => true

def applySyncOp (idx : FtsIndex) : SyncOp → FtsIndex
  | .upsertBatch docs => batchUpsert idx docs
  | .deleteBatch ids => batchDelete idx ids

/-- `SyncIterToFTS`: fetch the current ids via paged `BatchList`, fold
the producer's decisions through `emit`, flush the final partial batch,
then delete every id that belongs to this producer and was not seen.
Returns the resulting index and the trace of engine writes. -/
def syncIterToFTS (cmpCol : String) (batchSize₀ : Nat) (belongs : String → Bool)
    (idx : FtsIndex) (ds : List SyncDecision) : FtsIndex × List SyncOp :=
  let batchSize := if batchSize₀ = 0 then 1000 else batchSize₀
  let existingIds := idx.map (·.1)
  let st := ds.foldl (emitStep cmpCol batchSize) ⟨[], [], []⟩
  let batches := if st.pending.isEmpty then st.batches else st.batches ++ [st.pending]
  let toDelete := existingIds.filter (fun id => belongs id && decide (id ∉ st.seen))
  let ops := batches.map SyncOp.upsertBatch ++
    (if toDelete.isEmpty then [] else [SyncOp.deleteBatch toDelete])
  (ops.foldl applySyncOp idx, ops)

/-- Ids recorded in `seenNow` during the pass: every non-skip decision
with a non-empty id. -/
def seenIds (ds : List SyncDecision) : List String :=
  (ds.filter (fun d => !d.skip && decide (d.id ≠ ""))).map (·.id)

/-- The upsert emissions of the pass, in order, with the compare column
set. -/
def upsertEmissions (cmpCol : String) (ds : List SyncDecision) :
    List (String × FtsRow) :=
  (ds.filter (fun d => !d.skip && decide (d.id ≠ "") && !d.unchanged)).map
    (fun d => (d.id, assocPut d.vals cmpCol d.cmpOut))

theorem lookupEntry_append {α : Type} (a b : List (String × α)) (k : String) :
    lookupEntry (a ++ b) k =
      match lookupEntry a k with
      | some v => some v
      | none => lookupEntry b k := by
  induction a with
  | nil => simp [lookupEntry]
  | cons p rest ih =>
      by_cases hk : p.1 = k
      · simp [lookupEntry, hk]
      · simp [lookupEntry, hk, ih]

theorem lookupEntry_setEntry_ne {α : Type} {m : List (String × α)} {k k' : String}
    (hne : k' ≠ k) (v : α) : lookupEntry (setEntry m k' v) k = lookupEntry m k := by
  induction m with
  | nil => rfl
  | cons p rest ih =>
      by_cases hp : p.1 = k'
      · simp [setEntry, hp, lookupEntry, hne, hp.symm ▸ hne]
      · simp [setEntry, hp, lookupEntry, ih]

theorem lookupEntry_assocPut_self {α : Type} (m : List (String × α)) (k : String)
    (v : α) : lookupEntry (assocPut m k v) k = some v := by
  rw [assocPut]
  cases hl : lookupEntry m k with
  | some w => exact lookupEntry_setEntry_self hl
  | none => simp [lookupEntry_append, hl, lookupEntry]

theorem lookupEntry_assocPut_ne {α : Type} {m : List (String × α)} {k k' : String}
    (hne : k' ≠ k) (v : α) : lookupEntry (assocPut m k' v) k = lookupEntry m k := by
  rw [assocPut]
  cases hl : lookupEntry m k' with
  | some w => exact lookupEntry_setEntry_ne hne v
  | none =>
      rw [lookupEntry_append]
      cases lookupEntry m k with
      | some w => rfl
      | none => simp [lookupEntry, hne]

theorem assocPut_of_lookup_none {α : Type} {m : List (String × α)} {k : String}
    (h : lookupEntry m k = none) (v : α) : assocPut m k v = m ++ [(k, v)] := by
  rw [assocPut, h]

theorem lookupEntry_batchUpsert_not_mem {idx : FtsIndex}
    {ems : List (String × FtsRow)} {id : String}
    (h : id ∉ ems.map Prod.fst) :
    lookupEntry (batchUpsert idx ems) id = lookupEntry idx id := by
  induction ems generalizing idx with
  | nil => rfl
  | cons e rest ih =>
      rw [List.map_cons] at h
      have h1 : e.1 ≠ id := fun hc => h (hc ▸ List.mem_cons_self _ _)
      have h2 : id ∉ rest.map Prod.fst := fun hc => h (List.mem_cons_of_mem _ hc)
      show lookupEntry (batchUpsert (assocPut idx e.1 e.2) rest) id = _
      rw [ih h2, lookupEntry_assocPut_ne h1]

theorem lookupEntry_batchUpsert_of_mem {idx : FtsIndex}
    {ems : List (String × FtsRow)} {id : String} {r : FtsRow}
    (h : (id, r) ∈ ems) (hnd : (ems.map Prod.fst).Nodup) :
    lookupEntry (batchUpsert idx ems) id = some r := by
  induction ems generalizing idx with
  | nil => simp at h
  | cons e rest ih =>
      rw [List.map_cons, List.nodup_cons] at hnd
      rcases List.mem_cons.mp h with h | h
      · have hid : id ∉ rest.map Prod.fst := by
          rw [← h] at hnd
          exact hnd.1
        show lookupEntry (batchUpsert (assocPut idx e.1 e.2) rest) id = some r
        rw [lookupEntry_batchUpsert_not_mem hid, ← h]
        exact lookupEntry_assocPut_self idx id r
      · exact ih h hnd.2

theorem lookupEntry_batchDelete (idx : FtsIndex) (ids : List String) (id : String) :
    lookupEntry (batchDelete idx ids) id =
      if id ∈ ids then none else lookupEntry idx id := by
  induction idx with
  | nil => simp [batchDelete, lookupEntry]
  | cons p rest ih =>
      by_cases hmem : p.1 ∈ ids
      · have : (decide (p.1 ∉ ids)) = false := by simpa using hmem
        rw [batchDelete, List.filter_cons, this]
        rw [if_neg Bool.false_ne_true]
        rw [← batchDelete, ih]
        by_cases hid : id ∈ ids
        · simp [hid]
        · have hne : p.1 ≠ id := fun hc => hid (hc ▸ hmem)
          simp [hid, lookupEntry, hne]
      · have : (decide (p.1 ∉ ids)) = true := by simpa using hmem
        rw [batchDelete, List.filter_cons, this]
        rw [if_pos rfl]
        by_cases hp : p.1 = id
        · have hid : id ∉ ids := hp ▸ hmem
          simp [lookupEntry, hp, hid]
        · rw [lookupEntry, if_neg hp, ← batchDelete, ih, lookupEntry, if_neg hp]

theorem lookupEntry_isSome_mem {α : Type} {m : List (String × α)} {k : String}
    (h : (lookupEntry m k).isSome = true) : k ∈ m.map Prod.fst := by
  induction m with
  | nil => simp [lookupEntry] at h
  | cons p rest ih =>
      rw [lookupEntry] at h
      by_cases hp : p.1 = k
      · simp [hp]
      · rw [if_neg hp] at h
        simp [ih h]

/-- The flushed batches together with the still-pending batch, in
emission order. -/
def flushedAndPending (st : SyncState) : List (String × FtsRow) :=
  st.batches.flatten ++ st.pending

theorem batchDelete_nil (idx : FtsIndex) : batchDelete idx [] = idx := by
  simp [batchDelete]

theorem emit_foldl_seen (cmpCol : String) (batchSize : Nat) (ds : List SyncDecision) :
    ∀ st : SyncState,
      (ds.foldl (emitStep cmpCol batchSize) st).seen = st.seen ++ seenIds ds := by
  induction ds with
  | nil => intro st; simp [seenIds]
  | cons d rest ih =>
      intro st
      rw [List.foldl_cons]
      by_cases hsk : d.skip
      · have hstep : emitStep cmpCol batchSize st d = st := by
          simp [emitStep, hsk]
        rw [hstep, ih]
        simp [seenIds, List.filter_cons, hsk]
      · by_cases hid : d.id = ""
        · have hstep : emitStep cmpCol batchSize st d = st := by
            simp [emitStep, hsk, hid]
          rw [hstep, ih]
          simp [seenIds, List.filter_cons, hsk, hid]
        · have hseen : (emitStep cmpCol batchSize st d).seen = st.seen ++ [d.id] := by
            rw [emitStep]
            simp only [hsk, hid]
            by_cases hu : d.unchanged <;>
              by_cases hf : batchSize ≤ (assocPut st.pending d.id
                (assocPut d.vals cmpCol d.cmpOut)).length <;>
              simp [hu, hf]
          rw [ih, hseen]
          simp [seenIds, List.filter_cons, hsk, hid]

theorem emit_foldl_flushedAndPending (cmpCol : String) (batchSize : Nat)
    (ds : List SyncDecision) :
    ∀ st : SyncState,
      ((upsertEmissions cmpCol ds).map Prod.fst).Nodup →
      (∀ p ∈ upsertEmissions cmpCol ds, lookupEntry st.pending p.1 = none) →
      flushedAndPending (ds.foldl (emitStep cmpCol batchSize) st) =
        flushedAndPending st ++ upsertEmissions cmpCol ds := by
  induction ds with
  | nil => intro st _ _; simp [upsertEmissions]
  | cons d rest ih =>
      intro st hnd hpend
      rw [List.foldl_cons]
      by_cases hsk : d.skip
      · have hstep : emitStep cmpCol batchSize st d = st := by
          simp [emitStep, hsk]
        have hem : upsertEmissions cmpCol (d :: rest) = upsertEmissions cmpCol rest := by
          simp [upsertEmissions, List.filter_cons, hsk]
        rw [hem] at hnd hpend ⊢
        rw [hstep, ih st hnd hpend]
      · by_cases hid : d.id = ""
        · have hstep : emitStep cmpCol batchSize st d = st := by
            simp [emitStep, hsk, hid]
          have hem : upsertEmissions cmpCol (d :: rest) =
              upsertEmissions cmpCol rest := by
            simp [upsertEmissions, List.filter_cons, hsk, hid]
          rw [hem] at hnd hpend ⊢
          rw [hstep, ih st hnd hpend]
        · by_cases hu : d.unchanged
          · have hstep : emitStep cmpCol batchSize st d =
                { st with seen := st.seen ++ [d.id] } := by
              simp [emitStep, hsk, hid, hu]
            have hem : upsertEmissions cmpCol (d :: rest) =
                upsertEmissions cmpCol rest := by
              simp [upsertEmissions, List.filter_cons, hsk, hid, hu]
            rw [hem] at hnd hpend ⊢
            rw [hstep]
            have := ih { st with seen := st.seen ++ [d.id] } hnd hpend
            simpa [flushedAndPending] using this
          · -- upsert decision
            have hem : upsertEmissions cmpCol (d :: rest) =
                (d.id, assocPut d.vals cmpCol d.cmpOut) ::
                  upsertEmissions cmpCol rest := by
              simp [upsertEmissions, List.filter_cons, hsk, hid, hu]
            rw [hem] at hnd hpend ⊢
            rw [List.map_cons, List.nodup_cons] at hnd
            have hlook : lookupEntry st.pending d.id = none :=
              hpend _ (List.mem_cons_self _ _)
            have hpend' : assocPut st.pending d.id
                (assocPut d.vals cmpCol d.cmpOut) =
                st.pending ++ [(d.id, assocPut d.vals cmpCol d.cmpOut)] :=
              assocPut_of_lookup_none hlook _
            have hrest : ∀ p ∈ upsertEmissions cmpCol rest,
                lookupEntry (st.pending ++
                  [(d.id, assocPut d.vals cmpCol d.cmpOut)]) p.1 = none := by
              intro p hp
              rw [lookupEntry_append]
              rw [hpend p (List.mem_cons_of_mem _ hp)]
              have hne : d.id ≠ p.1 := by
                intro hc
                apply hnd.1
                show d.id ∈ _
                rw [hc]
                exact List.mem_map_of_mem Prod.fst hp
              simp [lookupEntry, hne]
            by_cases hf : batchSize ≤ (assocPut st.pending d.id
                (assocPut d.vals cmpCol d.cmpOut)).length
            · have hstep : emitStep cmpCol batchSize st d =
                  { seen := st.seen ++ [d.id], pending := [],
                    batches := st.batches ++ [assocPut st.pending d.id
                      (assocPut d.vals cmpCol d.cmpOut)] } := by
                simp [emitStep, hsk, hid, hu, hf]
              have hr := ih (SyncState.mk (st.seen ++ [d.id]) []
                  (st.batches ++ [assocPut st.pending d.id
                    (assocPut d.vals cmpCol d.cmpOut)])) hnd.2 (fun p _ => rfl)
              rw [hstep, hr]
              simp [flushedAndPending, hpend', List.flatten_append]
            · have hstep : emitStep cmpCol batchSize st d =
                  { seen := st.seen ++ [d.id],
                    pending := assocPut st.pending d.id
                      (assocPut d.vals cmpCol d.cmpOut),
                    batches := st.batches } := by
                simp [emitStep, hsk, hid, hu, hf]
              have hr := ih (SyncState.mk (st.seen ++ [d.id])
                  (assocPut st.pending d.id (assocPut d.vals cmpCol d.cmpOut))
                  st.batches) hnd.2 (fun p hp => by rw [hpend']; exact hrest p hp)
              rw [hstep, hr]
              simp [flushedAndPending, hpend']

theorem foldl_applySyncOp_upserts (batches : List (List (String × FtsRow))) :
    ∀ idx : FtsIndex,
      (batches.map SyncOp.upsertBatch).foldl applySyncOp idx =
        batchUpsert idx batches.flatten := by
  induction batches with
  | nil => intro idx; simp [batchUpsert]
  | cons b rest ih =>
      intro idx
      rw [List.map_cons, List.foldl_cons, List.flatten_cons, ih]
      rw [batchUpsert, batchUpsert, List.foldl_append]
      rfl

/-- The resulting index of a sync pass: all upsert emissions applied in
order, then the deferred deletion of the unseen owned ids (deleting an
empty list is the identity). -/
theorem syncIterToFTS_fst_char (cmpCol : String) (batchSize₀ : Nat)
    (belongs : String → Bool) (idx : FtsIndex) (ds : List SyncDecision)
    (hnd : ((upsertEmissions cmpCol ds).map Prod.fst).Nodup) :
    (syncIterToFTS cmpCol batchSize₀ belongs idx ds).1 =
      batchDelete (batchUpsert idx (upsertEmissions cmpCol ds))
        ((idx.map (·.1)).filter
          (fun id => belongs id && decide (id ∉ seenIds ds))) := by
  simp only [syncIterToFTS]
  set bs := if batchSize₀ = 0 then 1000 else batchSize₀ with hbs
  set st := ds.foldl (emitStep cmpCol bs) ⟨[], [], []⟩ with hst
  have hseen : st.seen = seenIds ds := by
    rw [hst, emit_foldl_seen]
    rfl
  have hfp : flushedAndPending st = upsertEmissions cmpCol ds := by
    rw [hst, emit_foldl_flushedAndPending cmpCol bs ds ⟨[], [], []⟩ hnd
      (fun p _ => rfl)]
    rfl
  have hflat : (if st.pending.isEmpty then st.batches
      else st.batches ++ [st.pending]).flatten = upsertEmissions cmpCol ds := by
    rw [← hfp, flushedAndPending]
    by_cases hp : st.pending.isEmpty
    · have hpe : st.pending = [] := by simpa [List.isEmpty_iff] using hp
      simp [hp, hpe]
    · simp [hp, List.flatten_append]
  rw [List.foldl_append, foldl_applySyncOp_upserts, hflat, hseen]
  by_cases hdel : ((idx.map (·.1)).filter
      (fun id => belongs id && decide (id ∉ seenIds ds))).isEmpty
  · have heq : (idx.map (·.1)).filter
        (fun id => belongs id && decide (id ∉ seenIds ds)) = [] := by
      simpa [List.isEmpty_iff] using hdel
    simp only [decide_not] at heq hdel ⊢
    simp [hdel, heq, batchDelete_nil]
  · simp only [decide_not] at hdel ⊢
    simp [hdel, applySyncOp]

/-- C7 (confirmed): after a sync pass in which each id is emitted at
most once (the iterator contract), every id present before the pass
with `belongs(id)` true that was not emitted is absent from the index;
every id emitted with an `Upsert` decision is present with its new
column values and new comparison value; and the trace of engine writes
is a block of `BatchUpsert`s followed only by the deferred
`BatchDelete` — deletion happens after the whole iteration. -/
theorem c7_sync_completeness :
    ∀ (cmpCol : String) (batchSize₀ : Nat) (belongs : String → Bool)
      (idx : FtsIndex) (ds : List SyncDecision),
      (seenIds ds).Nodup →
      (∀ id : String, (lookupEntry idx id).isSome = true → belongs id = true →
          id ∉ seenIds ds →
          lookupEntry (syncIterToFTS cmpCol batchSize₀ belongs idx ds).1 id =
            none) ∧
      (∀ d ∈ ds, d.skip = false → d.id ≠ "" → d.unchanged = false →
          lookupEntry (syncIterToFTS cmpCol batchSize₀ belongs idx ds).1 d.id =
            some (assocPut d.vals cmpCol d.cmpOut)) ∧
      (∃ ubs dels : List SyncOp,
          (syncIterToFTS cmpCol batchSize₀ belongs idx ds).2 = ubs ++ dels ∧
          (∀ op ∈ ubs, op.isUpsert = true) ∧
          (∀ op ∈ dels, op.isDelete = true)) := by
  intro cmpCol batchSize₀ belongs idx ds hnd
  have hsub : List.Sublist (upsertEmissions cmpCol ds)
      ((ds.filter (fun d => !d.skip && decide (d.id ≠ ""))).map
        (fun d => (d.id, assocPut d.vals cmpCol d.cmpOut))) := by
    rw [upsertEmissions]
    refine List.Sublist.map _ (List.monotone_filter_right _ ?_)
    intro d hq
    exact (Bool.and_eq_true_iff.mp hq).1
  have hnd' : ((upsertEmissions cmpCol ds).map Prod.fst).Nodup := by
    refine List.Nodup.sublist (List.Sublist.map Prod.fst hsub) ?_
    rw [List.map_map]
    have : (Prod.fst ∘ fun d : SyncDecision =>
        (d.id, assocPut d.vals cmpCol d.cmpOut)) = fun d => d.id := rfl
    rw [this]
    exact hnd
  refine ⟨fun id hsome hbel hnot => ?_, fun d hd hsk hid hu => ?_, ?_⟩
  · rw [syncIterToFTS_fst_char _ _ _ _ _ hnd', lookupEntry_batchDelete]
    have hmem : id ∈ (idx.map (·.1)).filter
        (fun i => belongs i && decide (i ∉ seenIds ds)) := by
      rw [List.mem_filter]
      exact ⟨lookupEntry_isSome_mem hsome, by simp [hbel, hnot]⟩
    rw [if_pos hmem]
  · rw [syncIterToFTS_fst_char _ _ _ _ _ hnd', lookupEntry_batchDelete]
    have hseenmem : d.id ∈ seenIds ds := by
      rw [seenIds]
      apply List.mem_map_of_mem
      rw [List.mem_filter]
      exact ⟨hd, by simp [hsk, hid]⟩
    have hnotdel : d.id ∉ (idx.map (·.1)).filter
        (fun i => belongs i && decide (i ∉ seenIds ds)) := by
      intro hctr
      rw [List.mem_filter] at hctr
      have h2 := hctr.2
      simp [hseenmem] at h2
    rw [if_neg hnotdel]
    apply lookupEntry_batchUpsert_of_mem _ hnd'
    rw [upsertEmissions]
    apply List.mem_map_of_mem
    rw [List.mem_filter]
    exact ⟨hd, by simp [hsk, hid, hu]⟩
  · simp only [syncIterToFTS]
    refine ⟨_, _, rfl, ?_, ?_⟩
    · intro op hop
      obtain ⟨b, _, rfl⟩ := List.mem_map.mp hop
      rfl
    · intro op hop
      by_cases hdel : ((idx.map (·.1)).filter (fun id => belongs id &&
          decide (id ∉ (ds.foldl (emitStep cmpCol
            (if batchSize₀ = 0 then 1000 else batchSize₀))
              ⟨[], [], []⟩).seen))).isEmpty
      · rw [if_pos hdel] at hop
        simp at hop
      · rw [if_neg hdel] at hop
        rcases List.mem_singleton.mp hop with rfl
        rfl

/-- Witness for C7: pre-index has rows `a` and `b`; the producer emits
only an upsert for `a` with a new comparison value; after sync `b` is
gone and `a` carries the new values. -/
theorem c7_witness :
    lookupEntry (syncIterToFTS "mtime" 2 (fun _ => true)
        [("a", [("mtime", "1")]), ("b", [("mtime", "2")])]
        [⟨"a", "3", [("title", "x")], false, false⟩]).1 "b" = none ∧
    lookupEntry (syncIterToFTS "mtime" 2 (fun _ => true)
        [("a", [("mtime", "1")]), ("b", [("mtime", "2")])]
        [⟨"a", "3", [("title", "x")], false, false⟩]).1 "a" =
      some [("title", "x"), ("mtime", "3")] :=
  ⟨(c7_sync_completeness "mtime" 2 (fun _ => true)
      [("a", [("mtime", "1")]), ("b", [("mtime", "2")])]
      [⟨"a", "3", [("title", "x")], false, false⟩] (by decide)).1 "b"
      (by decide) rfl (by decide),
   (c7_sync_completeness "mtime" 2 (fun _ => true)
      [("a", [("mtime", "1")]), ("b", [("mtime", "2")])]
      [⟨"a", "3", [("title", "x")], false, false⟩] (by decide)).2.1
      ⟨"a", "3", [("title", "x")], false, false⟩ (by decide) rfl
      (by decide) rfl⟩

/-! ## Reference semantics of `GetAll` (`store_directory.go`, `MapFileStore.GetAll`)

Go maps are reference values, so copying semantics must be modelled on
a heap: `map[string]any` cells live at addresses, and a nested map is a
`ref` into another cell.  `GetAll` copies only the top level
(`maps.Copy(dataCopy, store.data)`), so child references are shared
between the returned map and the store's document. -/

/-- A heap value: scalar, or a reference to a map cell. -/
inductive HVal where
  | num (n : Int) : HVal
  | str (s : String) : HVal
  | ref (a : Nat) : HVal
deriving DecidableEq, Repr

/-- The entries of one `map[string]any` cell. -/
abbrev HMap := List (String × HVal)

/-- A heap of map cells plus the next fresh address. -/
structure Heap where
  cells : List (Nat × HMap)
  next : Nat
deriving DecidableEq, Repr

def heapGet (h : Heap) (a : Nat) : Option HMap :=
  match h.cells.find? (fun c => c.1 == a) with
  | some c => some c.2
  | none => none

/-- `make(map[string]any)` followed by populating it: a fresh cell. -/
def heapAlloc (h : Heap) (m : HMap) : Nat × Heap :=
  (h.next, ⟨(h.next, m) :: h.cells, h.next + 1⟩)

/-- Overwrite the contents of an existing cell. -/
def heapSet (h : Heap) (a : Nat) (m : HMap) : Heap :=
  ⟨h.cells.map (fun c => if c.1 = a then (a, m) else c), h.next⟩

/-- `MapFileStore.GetAll` (without forceFetch): allocate a fresh map and
`maps.Copy` the top-level entries of the document into it — child
values, including references to nested maps, are shared. -/
def getAllShallow (h : Heap) (root : Nat) : Option (Nat × Heap) :=
  (heapGet h root).map (fun m => heapAlloc h m)

/-- The caller's mutation `m[k] = v` on the map cell at `a`. -/
def heapInsertAt (h : Heap) (a : Nat) (k : String) (v : HVal) : Heap :=
  match heapGet h a with
  | some m => heapSet h a (m ++ [(k, v)])
  | none => h

/-- Read back the document tree reachable from a heap value (fuel-bounded;
documents are acyclic, so enough fuel always exists). -/
def resolveVal (h : Heap) : Nat → HVal → Option Value
  | _, .num n => some (.num n)
  | _, .str s => some (.str s)
  | 0, .ref _ => none
  | fuel + 1, .ref a =>
      (heapGet h a).bind fun m =>
        (m.mapM (fun p => (resolveVal h fuel p.2).map (fun v => (p.1, v)))).map
          Value.map

/-- C1 (code bug): on the document `{"a": {"b": 1}}` (root cell 0, child
cell 1), `GetAll` returns a fresh top-level cell 2 whose entry `"a"`
still references cell 1; the caller's mutation `m["a"]["c"] = 2`
through the returned map changes the store's own document, which a
subsequent read observes. -/
theorem c1_getAll_shallow_copy_leaks :
    getAllShallow ⟨[(0, [("a", .ref 1)]), (1, [("b", .num 1)])], 2⟩ 0 =
      some (2, ⟨[(2, [("a", .ref 1)]), (0, [("a", .ref 1)]),
        (1, [("b", .num 1)])], 3⟩) ∧
    lookupEntry [("a", HVal.ref 1)] "a" = some (.ref 1) ∧
    resolveVal ⟨[(0, [("a", .ref 1)]), (1, [("b", .num 1)])], 2⟩ 3 (.ref 0) =
      some (.map [("a", .map [("b", .num 1)])]) ∧
    resolveVal (heapInsertAt ⟨[(2, [("a", .ref 1)]), (0, [("a", .ref 1)]),
        (1, [("b", .num 1)])], 3⟩ 1 "c" (.num 2)) 3 (.ref 0) =
      some (.map [("a", .map [("b", .num 1), ("c", .num 2)])]) := by
  exact ⟨rfl, rfl, rfl, rfl⟩

/-! ## Directory store listing (`store_directory.go`, `MapDirectoryStore.ListFiles`)

The filesystem under the base directory is a list of partition
subdirectories, each readable (`some` file names) or unreadable/missing
(`none`).  Page tokens are modelled structurally (base64/JSON encoding
of a threaded token round-trips).  The partition provider is the
baseline `listDirs` provider (sorted directory names with an integer
offset token).  Go's sorts return the unique sorted arrangement of
string lists, reproduced here by insertion sort.  The loop's fuel is a
modelling artifact for the unbounded `for {}`: with the fuel chosen by
`ListFiles` the `outOfFuel` result is unreachable. -/

def SortOrderAscending : String := "asc"

def SortOrderDescending : String := "desc"

/-- `ListingConfig`.  Go's `int` page size collapses to `Nat` here; all
non-positive values select the store default, modelled as `0`. -/
structure ListingConfig where
  sortOrder : String
  pageSize : Nat
  filterPartitions : List String
  filenamePrefix : String
deriving DecidableEq, Repr

/-- `partitionFilterPageToken`. -/
structure PartitionFilterPageToken where
  partitionIndex : Nat
  filterPartitions : List String
deriving DecidableEq, Repr

/-- `pageTokenData` (the `""` provider token is `none`). -/
structure PageTokenData where
  fileIndex : Nat
  sortOrder : String
  pageSize : Nat
  filenamePrefix : String
  partitionListingPageToken : Option Nat
  partitionFilterPageToken : Option PartitionFilterPageToken
deriving DecidableEq, Repr

/-- One partition subdirectory; `files = none` models a missing or
unreadable directory (`os.ReadDir` fails). -/
structure Partition where
  name : String
  files : Option (List String)
deriving DecidableEq, Repr

/-- The base directory contents. -/
structure DirFS where
  partitions : List Partition
deriving DecidableEq, Repr

/-- `FileEntry` (the stat info is reduced to the file name). -/
structure FileEntry where
  baseRelativePath : String
  partitionName : String
  fileName : String
deriving DecidableEq, Repr

def insertSorted (le : String → String → Bool) (x : String) :
    List String → List String
  | [] => [x]
  | y :: rest => if le x y then x :: y :: rest else y :: insertSorted le x rest

/-- Deterministic sort standing in for Go's `sort` (on a totally
ordered string list both produce the unique sorted arrangement). -/
def sortStrings (le : String → String → Bool) (l : List String) : List String :=
  l.foldr (insertSorted le) []

/-- ASCII lower-casing of a character (`strings.ToLower` fragment; the
sort-order strings compared here are ASCII). -/
def lowerChar (c : Char) : Char :=
  if 'A' ≤ c ∧ c ≤ 'Z' then Char.ofNat (c.toNat + 32) else c

/-- `strings.ToLower`, ASCII fragment. -/
def lowerStr (s : String) : String := String.mk (s.data.map lowerChar)

/-- `strings.EqualFold` (ASCII case folding). -/
def eqFold (a b : String) : Bool := lowerStr a == lowerStr b

/-- `filepath.Join(partitionName, name)`. -/
def joinPath (partitionName fileName : String) : String :=
  if partitionName = "" then fileName else partitionName ++ "/" ++ fileName

def mkEntry (partitionName fileName : String) : FileEntry :=
  ⟨joinPath partitionName fileName, partitionName, fileName⟩

/-- `MapDirectoryStore.readPartitionFiles`: read the partition directory
(`none` = `errCannotReadPartitionDir`), keep names with the configured
prefix, and sort by name — descending when the sort order equal-folds
to `"desc"`, ascending otherwise. -/
def readPartitionFiles (fs : DirFS) (partitionName sortOrder filenamePrefix : String) :
    Option (List String) :=
  match fs.partitions.find? (fun p => p.name == partitionName) with
  | none => none
  | some p =>
      match p.files with
      | none => none
      | some files =>
          let filtered := files.filter
            (fun n => filenamePrefix == "" || n.startsWith filenamePrefix)
          some (if eqFold sortOrder SortOrderDescending then
              sortStrings (fun a b => decide (b ≤ a)) filtered
            else sortStrings (fun a b => decide (a ≤ b)) filtered)

inductive ListDirsErr where
  | invalidSortOrder : ListDirsErr
deriving DecidableEq, Repr

/-- `dirpartition.listDirs`, the baseline partition provider: list the
subdirectory names, sort by the lower-cased sort order (anything other
than asc/desc is an error), then slice `[start:end]` and emit the next
offset as token while more directories remain.  (Go would panic when a
crafted token's offset exceeds the directory count; tokens produced by
this function always stay in range, where `drop`/`take` agree with the
slice.) -/
def listDirs (fs : DirFS) (sortOrder : String) (pageToken : Option Nat)
    (pageSize : Nat) : Except ListDirsErr (List String × Option Nat) :=
  let dirs := fs.partitions.map (·.name)
  let sortedOpt : Option (List String) :=
    if lowerStr sortOrder = SortOrderAscending then
      some (sortStrings (fun a b => decide (a ≤ b)) dirs)
    else if lowerStr sortOrder = SortOrderDescending then
      some (sortStrings (fun a b => decide (b ≤ a)) dirs)
    else none
  match sortedOpt with
  | none => .error .invalidSortOrder
  | some sorted =>
      let start := pageToken.getD 0
      let e := min (start + pageSize) sorted.length
      .ok ((sorted.drop start).take (e - start),
        if e < sorted.length then some e else none)

inductive ListFilesErr where
  | listPartitionsFailed (e : ListDirsErr) : ListFilesErr
  /-- the unfiltered mode's skip branch dereferences the nil filter
  token (`token.PartitionFilterPageToken.PartitionIndex++`). -/
  | nilTokenPanic : ListFilesErr
  | outOfFuel : ListFilesErr
deriving DecidableEq, Repr

/-- Result of the inner `for j := token.FileIndex; ...` emit loop. -/
inductive EmitOut where
  | stopped (entries : List FileEntry) (stopIndex : Nat) : EmitOut
  | finished (entries : List FileEntry) : EmitOut
deriving DecidableEq, Repr

/-- The inner emit loop over the partition's files from the resume
index: append an entry per file and stop (recording the index of the
first unemitted file) as soon as the accumulated page exceeds the page
size. -/
def emitLoop (partitionName : String) (pageSize : Nat) :
    List String → Nat → List FileEntry → EmitOut
  | [], _, acc => .finished acc
  | f :: rest, j, acc =>
      let acc' := acc ++ [mkEntry partitionName f]
      if pageSize < acc'.length then .stopped acc' j
      else emitLoop partitionName pageSize rest (j + 1) acc'

/-- The `for {}` loop of `ListFiles`.  The current partition comes from
the filter list by index (filtered mode) or from a one-element
`listDirs` page (provider mode).  An unreadable partition is "skipped":
the filtered branch increments the partition index in the error branch
and again at the bottom of the loop (so the following partition is
skipped as well); the provider branch dereferences the nil filter token
(a panic in Go).  A full page returns the page truncated to the page
size together with a token holding the stop file index and the
unchanged partition cursor. -/
def listFilesLoop (fs : DirFS) :
    Nat → PageTokenData → List FileEntry →
    Except ListFilesErr (List FileEntry × Option PageTokenData)
  | 0, _, _ => .error .outOfFuel
  | fuel + 1, token, acc =>
      match token.partitionFilterPageToken with
      | some pfpt =>
          if hlt : pfpt.partitionIndex < pfpt.filterPartitions.length then
            match readPartitionFiles fs
                (pfpt.filterPartitions.get ⟨pfpt.partitionIndex, hlt⟩)
                token.sortOrder token.filenamePrefix with
            | none =>
                listFilesLoop fs fuel
                  { token with
                    fileIndex := 0
                    partitionFilterPageToken :=
                      some ⟨pfpt.partitionIndex + 2, pfpt.filterPartitions⟩ }
                  acc
            | some files =>
                match emitLoop
                    (pfpt.filterPartitions.get ⟨pfpt.partitionIndex, hlt⟩)
                    token.pageSize (files.drop token.fileIndex)
                    token.fileIndex acc with
                | .stopped entries j =>
                    .ok (entries.take token.pageSize,
                      some { token with fileIndex := j })
                | .finished acc' =>
                    listFilesLoop fs fuel
                      { token with
                        fileIndex := 0
                        partitionFilterPageToken :=
                          some ⟨pfpt.partitionIndex + 1, pfpt.filterPartitions⟩ }
                      acc'
          else .ok (acc, none)
      | none =>
          match listDirs fs token.sortOrder token.partitionListingPageToken 1 with
          | .error e => .error (.listPartitionsFailed e)
          | .ok ([], _) => .ok (acc, none)
          | .ok (partitionName :: _, nextTok) =>
              match readPartitionFiles fs partitionName token.sortOrder
                  token.filenamePrefix with
              | none => .error .nilTokenPanic
              | some files =>
                  match emitLoop partitionName token.pageSize
                      (files.drop token.fileIndex) token.fileIndex acc with
                  | .stopped entries j =>
                      .ok (entries.take token.pageSize,
                        some { token with fileIndex := j })
                  | .finished acc' =>
                      match nextTok with
                      | none => .ok (acc', none)
                      | some nt =>
                          listFilesLoop fs fuel
                            { token with
                              fileIndex := 0
                              partitionListingPageToken := some nt }
                            acc'

/-- Token initialization from the config on an empty page token: empty
sort order defaults to ascending, non-positive page size to the store
default, and a non-empty filter list selects filtered mode. -/
def initToken (mdsPageSize : Nat) (config : ListingConfig) : PageTokenData where
  fileIndex := 0
  sortOrder := if config.sortOrder = "" then SortOrderAscending else config.sortOrder
  pageSize := if config.pageSize = 0 then mdsPageSize else config.pageSize
  filenamePrefix := config.filenamePrefix
  partitionListingPageToken := none
  partitionFilterPageToken :=
    if 0 < config.filterPartitions.length then
      some ⟨0, config.filterPartitions⟩
    else none

/-- Fuel with which `ListFiles` runs its loop: more than the number of
partitions in scope, which bounds the loop's iterations. -/
def listFilesFuel (fs : DirFS) (token : PageTokenData) : Nat :=
  match token.partitionFilterPageToken with
  | some pfpt => pfpt.filterPartitions.length + 1
  | none => fs.partitions.length + 1

/-- `MapDirectoryStore.ListFiles`: decode the page token (modelled
structurally: `none` is the empty token) or initialize from the config,
then run the loop. -/
def ListFiles (fs : DirFS) (mdsPageSize : Nat) (config : ListingConfig)
    (pageToken : Option PageTokenData) :
    Except ListFilesErr (List FileEntry × Option PageTokenData) :=
  let token := match pageToken with
    | some t => t
    | none => initToken mdsPageSize config
  listFilesLoop fs (listFilesFuel fs token) token []

/-- The entries of one partition as the listing yields them. -/
def partitionEntries (fs : DirFS) (sortOrder filenamePrefix partitionName : String) :
    List FileEntry :=
  match readPartitionFiles fs partitionName sortOrder filenamePrefix with
  | some files => files.map (mkEntry partitionName)
  | none => []

/-- The sorted directory names the provider iterates over. -/
def sortedDirs (fs : DirFS) (sortOrder : String) : List String :=
  if lowerStr sortOrder = SortOrderAscending then
    sortStrings (fun a b => decide (a ≤ b)) (fs.partitions.map (·.name))
  else sortStrings (fun a b => decide (b ≤ a)) (fs.partitions.map (·.name))

/-- The partitions a token still has to visit, current one first. -/
def tokenPartitionSeq (fs : DirFS) (token : PageTokenData) : List String :=
  match token.partitionFilterPageToken with
  | some pfpt => pfpt.filterPartitions.drop pfpt.partitionIndex
  | none => (sortedDirs fs token.sortOrder).drop
      (token.partitionListingPageToken.getD 0)

/-- The entries a token still has to yield: the current partition from
the resume file index, then every later partition in full. -/
def remainingEntries (fs : DirFS) (token : PageTokenData) : List FileEntry :=
  match tokenPartitionSeq fs token with
  | [] => []
  | p :: rest =>
      (partitionEntries fs token.sortOrder token.filenamePrefix p).drop
        token.fileIndex ++
      (rest.map (partitionEntries fs token.sortOrder token.filenamePrefix)).flatten

/-- The complete entry list of a configuration, in the configured
partition-then-filename order. -/
def allEntries (fs : DirFS) (config : ListingConfig) : List FileEntry :=
  let so := if config.sortOrder = "" then SortOrderAscending else config.sortOrder
  let parts := if 0 < config.filterPartitions.length then config.filterPartitions
    else sortedDirs fs so
  (parts.map (partitionEntries fs so config.filenamePrefix)).flatten

/-- Well-formedness of a token relative to the filesystem: a valid sort
order, a positive page size, every partition in scope readable, and the
provider cursor in range. -/
def validTokenB (fs : DirFS) (token : PageTokenData) : Bool :=
  (lowerStr token.sortOrder == SortOrderAscending ||
    lowerStr token.sortOrder == SortOrderDescending) &&
  decide (1 ≤ token.pageSize) &&
  (match token.partitionFilterPageToken with
   | some pfpt => pfpt.filterPartitions.all
       (fun name => (readPartitionFiles fs name token.sortOrder
          token.filenamePrefix).isSome)
   | none =>
       fs.partitions.all (fun p => p.files.isSome) &&
       (match token.partitionListingPageToken with
        | some s => decide (s < fs.partitions.length)
        | none => true))

/-- Loop iterations still possible from a token (the partition cursor
advances every iteration that does not return). -/
def tokenMeasure (fs : DirFS) (token : PageTokenData) : Nat :=
  match token.partitionFilterPageToken with
  | some pfpt => (pfpt.filterPartitions.length - pfpt.partitionIndex) + 1
  | none => (fs.partitions.length - token.partitionListingPageToken.getD 0) + 1

/-- Sort order, page size and prefix survive into the continuation
token. -/
def sameCfg (t t' : PageTokenData) : Prop :=
  t'.sortOrder = t.sortOrder ∧ t'.pageSize = t.pageSize ∧
  t'.filenamePrefix = t.filenamePrefix

/-- C6 (code bug demonstration): filter `["p1","p2","p3"]` where `p1`
is missing and `p2`, `p3` are readable with one file each — the listing
silently skips `p1` but also skips the readable `p2` (its index is
incremented both in the skip branch and at the loop bottom), yielding
only `p3`'s entry. -/
theorem c6_unreadable_partition_skips_next :
    ListFiles ⟨[⟨"p2", some ["b.json"]⟩, ⟨"p3", some ["c.json"]⟩]⟩ 10
      ⟨"asc", 10, ["p1", "p2", "p3"], ""⟩ none =
      .ok ([⟨"p3/c.json", "p3", "c.json"⟩], none) := by
  rfl

theorem sortStrings_length (le : String → String → Bool) (l : List String) :
    (sortStrings le l).length = l.length := by
  have hins : ∀ (x : String) (m : List String),
      (insertSorted le x m).length = m.length + 1 := by
    intro x m
    induction m with
    | nil => rfl
    | cons y rest ih =>
        rw [insertSorted]
        by_cases hle : le x y
        · simp [hle]
        · simp [hle, ih]
  induction l with
  | nil => rfl
  | cons x rest ih =>
      rw [sortStrings, List.foldr_cons, hins]
      rw [sortStrings] at ih
      rw [ih, List.length_cons]

theorem sortedDirs_length (fs : DirFS) (sortOrder : String) :
    (sortedDirs fs sortOrder).length = fs.partitions.length := by
  rw [sortedDirs]
  by_cases h : lowerStr sortOrder = SortOrderAscending <;>
    simp [h, sortStrings_length]

/-- `listDirs` with page size one, when the cursor is in range: one
directory, and a next token exactly while further directories exist. -/
theorem listDirs_ok_lt (fs : DirFS) (sortOrder : String) (pageToken : Option Nat)
    (hso : lowerStr sortOrder = SortOrderAscending ∨
      lowerStr sortOrder = SortOrderDescending)
    (hlt : pageToken.getD 0 < (sortedDirs fs sortOrder).length) :
    listDirs fs sortOrder pageToken 1 =
      .ok ([(sortedDirs fs sortOrder).get ⟨pageToken.getD 0, hlt⟩],
        if pageToken.getD 0 + 1 < (sortedDirs fs sortOrder).length then
          some (pageToken.getD 0 + 1) else none) := by
  have hsorted : (if lowerStr sortOrder = SortOrderAscending then
      some (sortStrings (fun a b => decide (a ≤ b)) (fs.partitions.map (·.name)))
    else if lowerStr sortOrder = SortOrderDescending then
      some (sortStrings (fun a b => decide (b ≤ a)) (fs.partitions.map (·.name)))
    else none) = some (sortedDirs fs sortOrder) := by
    rcases hso with h | h
    · rw [if_pos h, sortedDirs, if_pos h]
    · have hne : lowerStr sortOrder ≠ SortOrderAscending := by
        rw [h]; decide
      rw [if_neg hne, if_pos h, sortedDirs, if_neg hne]
  rw [listDirs]
  simp only [hsorted]
  have hmin : min (pageToken.getD 0 + 1) (sortedDirs fs sortOrder).length =
      pageToken.getD 0 + 1 := by omega
  rw [hmin]
  have hdrop : (sortedDirs fs sortOrder).drop (pageToken.getD 0) =
      (sortedDirs fs sortOrder).get ⟨pageToken.getD 0, hlt⟩ ::
        (sortedDirs fs sortOrder).drop (pageToken.getD 0 + 1) := by
    rw [List.drop_eq_getElem_cons hlt]
    rfl
  rw [hdrop]
  have htake : pageToken.getD 0 + 1 - pageToken.getD 0 = 1 := by omega
  rw [htake]
  rfl

/-- `listDirs` with the cursor at or past the end: empty page, empty
token. -/
theorem listDirs_ok_ge (fs : DirFS) (sortOrder : String) (pageToken : Option Nat)
    (hso : lowerStr sortOrder = SortOrderAscending ∨
      lowerStr sortOrder = SortOrderDescending)
    (hge : (sortedDirs fs sortOrder).length ≤ pageToken.getD 0) :
    listDirs fs sortOrder pageToken 1 = .ok ([], none) := by
  have hsorted : (if lowerStr sortOrder = SortOrderAscending then
      some (sortStrings (fun a b => decide (a ≤ b)) (fs.partitions.map (·.name)))
    else if lowerStr sortOrder = SortOrderDescending then
      some (sortStrings (fun a b => decide (b ≤ a)) (fs.partitions.map (·.name)))
    else none) = some (sortedDirs fs sortOrder) := by
    rcases hso with h | h
    · rw [if_pos h, sortedDirs, if_pos h]
    · have hne : lowerStr sortOrder ≠ SortOrderAscending := by
        rw [h]; decide
      rw [if_neg hne, if_pos h, sortedDirs, if_neg hne]
  rw [listDirs]
  simp only [hsorted]
  have hdrop : (sortedDirs fs sortOrder).drop (pageToken.getD 0) = [] :=
    List.drop_eq_nil_of_le hge
  have hmin : min (pageToken.getD 0 + 1) (sortedDirs fs sortOrder).length =
      (sortedDirs fs sortOrder).length := by omega
  rw [hmin, hdrop]
  have hcond : ¬ (sortedDirs fs sortOrder).length <
      (sortedDirs fs sortOrder).length := by omega
  rw [if_neg hcond, List.take_nil]

/-- The emit loop finishes the partition when the page is not filled. -/
theorem emitLoop_finished (partitionName : String) (pageSize : Nat) :
    ∀ (l : List String) (j : Nat) (acc : List FileEntry),
      acc.length + l.length ≤ pageSize →
      emitLoop partitionName pageSize l j acc =
        .finished (acc ++ l.map (mkEntry partitionName)) := by
  intro l
  induction l with
  | nil => intro j acc h; simp [emitLoop]
  | cons f rest ih =>
      intro j acc h
      rw [List.length_cons] at h
      rw [emitLoop]
      have hlen : ¬ pageSize < (acc ++ [mkEntry partitionName f]).length := by
        rw [List.length_append, List.length_singleton]
        omega
      rw [if_neg hlen]
      rw [ih (j + 1) (acc ++ [mkEntry partitionName f])
        (by rw [List.length_append, List.length_singleton]; omega)]
      simp

/-- The emit loop stops exactly when the accumulated page first exceeds
the page size, after emitting `pageSize - acc.length` further entries;
the stop index is the index of the first unemitted file. -/
theorem emitLoop_stopped (partitionName : String) (pageSize : Nat) :
    ∀ (l : List String) (j : Nat) (acc : List FileEntry),
      acc.length ≤ pageSize →
      pageSize < acc.length + l.length →
      ∃ (l₁ : List String) (f : String) (l₂ : List String),
        l = l₁ ++ f :: l₂ ∧
        acc.length + l₁.length = pageSize ∧
        emitLoop partitionName pageSize l j acc =
          .stopped (acc ++ (l₁ ++ [f]).map (mkEntry partitionName))
            (j + l₁.length) := by
  intro l
  induction l with
  | nil => intro j acc h1 h2; rw [List.length_nil] at h2; omega
  | cons f rest ih =>
      intro j acc h1 h2
      rw [List.length_cons] at h2
      rw [emitLoop]
      by_cases hfull : pageSize < (acc ++ [mkEntry partitionName f]).length
      · rw [List.length_append, List.length_singleton] at hfull
        have hacc : acc.length = pageSize := by omega
        refine ⟨[], f, rest, rfl, by simpa using hacc, ?_⟩
        rw [if_pos (by rw [List.length_append, List.length_singleton]; omega)]
        simp
      · rw [if_neg hfull]
        rw [List.length_append, List.length_singleton] at hfull
        obtain ⟨l₁, g, l₂, hsplit, hlen, hres⟩ :=
          ih (j + 1) (acc ++ [mkEntry partitionName f])
            (by rw [List.length_append, List.length_singleton]; omega)
            (by rw [List.length_append, List.length_singleton]; omega)
        refine ⟨f :: l₁, g, l₂, by rw [hsplit]; rfl, ?_, ?_⟩
        · rw [List.length_append, List.length_singleton] at hlen
          rw [List.length_cons]
          omega
        · rw [hres]
          rw [List.length_append, List.length_singleton] at hlen
          congr 1
          · simp
          · rw [List.length_cons]
            omega

theorem mem_insertSorted (le : String → String → Bool) (x y : String)
    (l : List String) : y ∈ insertSorted le x l ↔ y = x ∨ y ∈ l := by
  induction l with
  | nil => simp [insertSorted]
  | cons z rest ih =>
      rw [insertSorted]
      by_cases hle : le x z
      · simp [hle]
      · rw [if_neg hle]
        simp only [List.mem_cons, ih]
        tauto

theorem mem_sortStrings (le : String → String → Bool) (l : List String)
    (x : String) : x ∈ sortStrings le l ↔ x ∈ l := by
  induction l with
  | nil => simp [sortStrings]
  | cons y rest ih =>
      rw [sortStrings, List.foldr_cons, mem_insertSorted]
      rw [sortStrings] at ih
      simp [ih]

theorem mem_sortedDirs {fs : DirFS} {sortOrder x : String}
    (h : x ∈ sortedDirs fs sortOrder) : x ∈ fs.partitions.map (·.name) := by
  rw [sortedDirs] at h
  by_cases hso : lowerStr sortOrder = SortOrderAscending
  · rw [if_pos hso, mem_sortStrings] at h; exact h
  · rw [if_neg hso, mem_sortStrings] at h; exact h

theorem readPartitionFiles_isSome_of_mem {fs : DirFS} {name : String}
    (sortOrder pre : String)
    (hmem : name ∈ fs.partitions.map (·.name))
    (hall : ∀ p ∈ fs.partitions, p.files.isSome = true) :
    (readPartitionFiles fs name sortOrder pre).isSome = true := by
  rw [readPartitionFiles]
  have hex : ∃ p, p ∈ fs.partitions ∧ (fun q => q.name == name) p = true := by
    obtain ⟨p, hp, hpname⟩ := List.mem_map.mp hmem
    exact ⟨p, hp, by simp [hpname]⟩
  have hfind : (fs.partitions.find? (fun q => q.name == name)).isSome = true := by
    rw [List.find?_isSome]
    simpa using hex
  cases hq : fs.partitions.find? (fun q => q.name == name) with
  | none => rw [hq] at hfind; simp at hfind
  | some q =>
      have hqmem : q ∈ fs.partitions := List.mem_of_find?_eq_some hq
      have hqf := hall q hqmem
      cases hfq : q.files with
      | none => rw [hfq] at hqf; simp at hqf
      | some files => simp [hfq]

theorem validTokenB_sort {fs : DirFS} {token : PageTokenData}
    (h : validTokenB fs token = true) :
    lowerStr token.sortOrder = SortOrderAscending ∨
    lowerStr token.sortOrder = SortOrderDescending := by
  rw [validTokenB] at h
  have h1 := (Bool.and_eq_true_iff.mp (Bool.and_eq_true_iff.mp h).1).1
  simpa using h1

theorem validTokenB_pageSize {fs : DirFS} {token : PageTokenData}
    (h : validTokenB fs token = true) : 1 ≤ token.pageSize := by
  rw [validTokenB] at h
  have h1 := (Bool.and_eq_true_iff.mp (Bool.and_eq_true_iff.mp h).1).2
  simpa using h1

theorem validTokenB_filter {fs : DirFS} {token : PageTokenData}
    {pfpt : PartitionFilterPageToken}
    (h : validTokenB fs token = true)
    (hft : token.partitionFilterPageToken = some pfpt) :
    ∀ name ∈ pfpt.filterPartitions,
      (readPartitionFiles fs name token.sortOrder token.filenamePrefix).isSome =
        true := by
  rw [validTokenB, hft] at h
  have h2 := (Bool.and_eq_true_iff.mp h).2
  intro name hname
  exact List.all_eq_true.mp h2 name hname

theorem validTokenB_provider {fs : DirFS} {token : PageTokenData}
    (h : validTokenB fs token = true)
    (hft : token.partitionFilterPageToken = none) :
    (∀ p ∈ fs.partitions, p.files.isSome = true) ∧
    (∀ s, token.partitionListingPageToken = some s →
      s < fs.partitions.length) := by
  rw [validTokenB, hft] at h
  have h2 := (Bool.and_eq_true_iff.mp h).2
  have h3 := Bool.and_eq_true_iff.mp h2
  constructor
  · intro p hp
    exact List.all_eq_true.mp h3.1 p hp
  · intro s hs
    rw [hs] at h3
    simpa using h3.2

theorem remainingEntries_fileIndex_zero {fs : DirFS} {token : PageTokenData}
    (h : token.fileIndex = 0) :
    remainingEntries fs token =
      ((tokenPartitionSeq fs token).map
        (partitionEntries fs token.sortOrder token.filenamePrefix)).flatten := by
  rw [remainingEntries]
  cases hseq : tokenPartitionSeq fs token with
  | nil => simp
  | cons p rest => simp [h]

/-- Shared algebra of the page-full stop: the emitted page truncated to
the page size is the page-size prefix of the outstanding entries, more
entries remain, and the continuation token's outstanding entries are
exactly the page-size suffix. -/
theorem stopped_case_assembly {fs : DirFS} {token : PageTokenData}
    {pName : String} {files l₁ : List String} {f : String} {l₂ : List String}
    {acc Rest : List FileEntry}
    (hfiles : readPartitionFiles fs pName token.sortOrder token.filenamePrefix =
      some files)
    (hsplit : files.drop token.fileIndex = l₁ ++ f :: l₂)
    (hlen : acc.length + l₁.length = token.pageSize)
    (hrem : remainingEntries fs token =
      (partitionEntries fs token.sortOrder token.filenamePrefix pName).drop
        token.fileIndex ++ Rest)
    (hremj : remainingEntries fs
        { token with fileIndex := token.fileIndex + l₁.length } =
      (partitionEntries fs token.sortOrder token.filenamePrefix pName).drop
        (token.fileIndex + l₁.length) ++ Rest) :
    (acc ++ (l₁ ++ [f]).map (mkEntry pName)).take token.pageSize =
        (acc ++ remainingEntries fs token).take token.pageSize ∧
    token.pageSize < (acc ++ remainingEntries fs token).length ∧
    remainingEntries fs { token with fileIndex := token.fileIndex + l₁.length } =
        (acc ++ remainingEntries fs token).drop token.pageSize := by
  have hpe : partitionEntries fs token.sortOrder token.filenamePrefix pName =
      files.map (mkEntry pName) := by
    rw [partitionEntries, hfiles]
  have hdropfi : (partitionEntries fs token.sortOrder token.filenamePrefix
      pName).drop token.fileIndex =
      l₁.map (mkEntry pName) ++ (mkEntry pName f :: l₂.map (mkEntry pName)) := by
    rw [hpe, ← List.map_drop, hsplit]
    simp
  have hXlen : (acc ++ l₁.map (mkEntry pName)).length = token.pageSize := by
    rw [List.length_append, List.length_map]
    exact hlen
  have hshape : acc ++ remainingEntries fs token =
      (acc ++ l₁.map (mkEntry pName)) ++
        (mkEntry pName f :: l₂.map (mkEntry pName) ++ Rest) := by
    rw [hrem, hdropfi]
    simp
  refine ⟨?_, ?_, ?_⟩
  · rw [hshape, List.take_left' hXlen]
    have : acc ++ (l₁ ++ [f]).map (mkEntry pName) =
        (acc ++ l₁.map (mkEntry pName)) ++ [mkEntry pName f] := by simp
    rw [this, List.take_left' hXlen]
  · rw [hshape, List.length_append, hXlen]
    simp
  · rw [hshape, List.drop_left' hXlen, hremj]
    have hdropj : (partitionEntries fs token.sortOrder token.filenamePrefix
        pName).drop (token.fileIndex + l₁.length) =
        mkEntry pName f :: l₂.map (mkEntry pName) := by
      rw [hpe, ← List.map_drop]
      have hd2 : files.drop (token.fileIndex + l₁.length) =
          (files.drop token.fileIndex).drop l₁.length := by
        rw [List.drop_drop]
        try congr 1
        try omega
      rw [hd2, hsplit, List.drop_left' rfl]
      try simp
    rw [hdropj]
    try simp

theorem validTokenB_filter_update {fs : DirFS} {token : PageTokenData}
    {pfpt : PartitionFilterPageToken} (fi idx' : Nat)
    (hv : validTokenB fs token = true)
    (hft : token.partitionFilterPageToken = some pfpt) :
    validTokenB fs { token with
      fileIndex := fi
      partitionFilterPageToken := some ⟨idx', pfpt.filterPartitions⟩ } = true := by
  rw [validTokenB] at hv ⊢
  rw [hft] at hv
  simpa using hv

theorem validTokenB_provider_update {fs : DirFS} {token : PageTokenData}
    (fi s' : Nat)
    (hv : validTokenB fs token = true)
    (hft : token.partitionFilterPageToken = none)
    (hs : s' < fs.partitions.length) :
    validTokenB fs { token with
      fileIndex := fi
      partitionListingPageToken := some s' } = true := by
  rw [validTokenB] at hv ⊢
  rw [hft] at hv ⊢
  simp only [Bool.and_eq_true] at hv ⊢
  exact ⟨hv.1, hv.2.1, by simpa using hs⟩

theorem validTokenB_fileIndex {fs : DirFS} (token : PageTokenData) (j : Nat) :
    validTokenB fs { token with fileIndex := j } = validTokenB fs token := rfl

theorem tokenMeasure_pos (fs : DirFS) (token : PageTokenData) :
    1 ≤ tokenMeasure fs token := by
  cases h : token.partitionFilterPageToken with
  | some pfpt => simp only [tokenMeasure, h]; omega
  | none => simp only [tokenMeasure, h]; omega

/-- One `ListFiles` call, characterized: with a well-formed token the
loop returns the outstanding entries when they fit in the page, and
otherwise exactly a full page (the page-size prefix of the outstanding
entries) together with a well-formed continuation token whose
outstanding entries are exactly the rest. -/
theorem listFilesLoop_char (fs : DirFS) :
    ∀ (fuel : Nat) (token : PageTokenData) (acc : List FileEntry),
      validTokenB fs token = true →
      tokenMeasure fs token ≤ fuel →
      acc.length ≤ token.pageSize →
      (∃ page, listFilesLoop fs fuel token acc = .ok (page, none) ∧
          page = acc ++ remainingEntries fs token ∧
          page.length ≤ token.pageSize) ∨
      (∃ t', listFilesLoop fs fuel token acc =
            .ok ((acc ++ remainingEntries fs token).take token.pageSize,
              some t') ∧
          token.pageSize < (acc ++ remainingEntries fs token).length ∧
          remainingEntries fs t' =
            (acc ++ remainingEntries fs token).drop token.pageSize ∧
          sameCfg token t' ∧ validTokenB fs t' = true) := by
  intro fuel
  induction fuel with
  | zero =>
      intro token acc hv hm hacc
      exfalso
      have := tokenMeasure_pos fs token
      omega
  | succ fuel ih =>
      intro token acc hv hm hacc
      cases hft : token.partitionFilterPageToken with
      | some pfpt =>
          by_cases hlt : pfpt.partitionIndex < pfpt.filterPartitions.length
          · -- current partition from the filter list
            have hread := validTokenB_filter hv hft
              (pfpt.filterPartitions.get ⟨pfpt.partitionIndex, hlt⟩)
              (List.get_mem _ _ _)
            obtain ⟨files, hfiles⟩ := Option.isSome_iff_exists.mp hread
            have hseq : tokenPartitionSeq fs token =
                pfpt.filterPartitions.get ⟨pfpt.partitionIndex, hlt⟩ ::
                  pfpt.filterPartitions.drop (pfpt.partitionIndex + 1) := by
              rw [tokenPartitionSeq, hft]
              simp only []
              rw [List.drop_eq_getElem_cons hlt]
              simp [List.get_eq_getElem]
            have hrem : remainingEntries fs token =
                (partitionEntries fs token.sortOrder token.filenamePrefix
                  (pfpt.filterPartitions.get ⟨pfpt.partitionIndex, hlt⟩)).drop
                    token.fileIndex ++
                ((pfpt.filterPartitions.drop (pfpt.partitionIndex + 1)).map
                  (partitionEntries fs token.sortOrder
                    token.filenamePrefix)).flatten := by
              rw [remainingEntries, hseq]
            have hpe_drop : (partitionEntries fs token.sortOrder
                token.filenamePrefix
                (pfpt.filterPartitions.get ⟨pfpt.partitionIndex, hlt⟩)).drop
                  token.fileIndex =
                (files.drop token.fileIndex).map
                  (mkEntry (pfpt.filterPartitions.get
                    ⟨pfpt.partitionIndex, hlt⟩)) := by
              rw [partitionEntries, hfiles, List.map_drop]
            rw [listFilesLoop, hft]
            simp only []
            rw [dif_pos hlt, hfiles]
            simp only []
            by_cases hfit : acc.length +
                (files.drop token.fileIndex).length ≤ token.pageSize
            · -- the partition fits: finish it and continue with the next one
              rw [emitLoop_finished _ _ _ token.fileIndex acc hfit]
              simp only []
              have hv' := validTokenB_filter_update 0 (pfpt.partitionIndex + 1)
                hv hft
              have hm' : tokenMeasure fs { token with
                  fileIndex := 0
                  partitionFilterPageToken :=
                    some ⟨pfpt.partitionIndex + 1, pfpt.filterPartitions⟩ } ≤
                  fuel := by
                rw [tokenMeasure] at hm
                rw [hft] at hm
                simp only [] at hm
                rw [tokenMeasure]
                simp only []
                omega
              have hacc' : (acc ++ (files.drop token.fileIndex).map
                  (mkEntry (pfpt.filterPartitions.get
                    ⟨pfpt.partitionIndex, hlt⟩))).length ≤ token.pageSize := by
                rw [List.length_append, List.length_map]
                exact hfit
              have hseq' : tokenPartitionSeq fs { token with
                  fileIndex := 0
                  partitionFilterPageToken :=
                    some ⟨pfpt.partitionIndex + 1, pfpt.filterPartitions⟩ } =
                  pfpt.filterPartitions.drop (pfpt.partitionIndex + 1) := by
                rw [tokenPartitionSeq]
              have hrem' : remainingEntries fs { token with
                  fileIndex := 0
                  partitionFilterPageToken :=
                    some ⟨pfpt.partitionIndex + 1, pfpt.filterPartitions⟩ } =
                  ((pfpt.filterPartitions.drop (pfpt.partitionIndex + 1)).map
                    (partitionEntries fs token.sortOrder
                      token.filenamePrefix)).flatten := by
                rw [remainingEntries_fileIndex_zero rfl, hseq']
              have hglue : (acc ++ (files.drop token.fileIndex).map
                  (mkEntry (pfpt.filterPartitions.get
                    ⟨pfpt.partitionIndex, hlt⟩))) ++
                  remainingEntries fs { token with
                    fileIndex := 0
                    partitionFilterPageToken :=
                      some ⟨pfpt.partitionIndex + 1, pfpt.filterPartitions⟩ } =
                  acc ++ remainingEntries fs token := by
                rw [hrem', hrem, hpe_drop, List.append_assoc]
              rcases ih _ _ hv' hm' hacc' with ⟨page, hres, hpage, hlen⟩ |
                ⟨t', hres, hlen2, hremt, hcfg, hvt⟩
              · left
                refine ⟨page, hres, ?_, ?_⟩
                · rw [hpage, hglue]
                · exact hlen
              · right
                refine ⟨t', ?_, ?_, ?_, hcfg, hvt⟩
                · rw [hres, hglue]
                · rw [← hglue]; exact hlen2
                · rw [hremt, hglue]
            · -- page fills inside this partition
              rw [Nat.not_le] at hfit
              obtain ⟨l₁, f, l₂, hsplit, hlen, hres⟩ :=
                emitLoop_stopped _ token.pageSize (files.drop token.fileIndex)
                  token.fileIndex acc hacc hfit
              rw [hres]
              simp only []
              have hremj : remainingEntries fs
                  { token with fileIndex := token.fileIndex + l₁.length } =
                  (partitionEntries fs token.sortOrder token.filenamePrefix
                    (pfpt.filterPartitions.get ⟨pfpt.partitionIndex, hlt⟩)).drop
                      (token.fileIndex + l₁.length) ++
                  ((pfpt.filterPartitions.drop (pfpt.partitionIndex + 1)).map
                    (partitionEntries fs token.sortOrder
                      token.filenamePrefix)).flatten := by
                have hseqj : tokenPartitionSeq fs
                    { token with fileIndex := token.fileIndex + l₁.length } =
                    pfpt.filterPartitions.get ⟨pfpt.partitionIndex, hlt⟩ ::
                      pfpt.filterPartitions.drop (pfpt.partitionIndex + 1) :=
                  hseq
                rw [remainingEntries, hseqj]
              obtain ⟨htake, hlt2, hdrop2⟩ :=
                stopped_case_assembly hfiles hsplit hlen hrem hremj
              right
              refine ⟨{ token with fileIndex := token.fileIndex + l₁.length },
                ?_, hlt2, hdrop2, ⟨rfl, rfl, rfl⟩, ?_⟩
              · rw [htake, hft]
              · rw [validTokenB_fileIndex]; exact hv
          · -- filter exhausted
            rw [listFilesLoop, hft]
            simp only []
            rw [dif_neg hlt]
            left
            have hseq0 : tokenPartitionSeq fs token = [] := by
              rw [tokenPartitionSeq, hft]
              simp only []
              exact List.drop_eq_nil_of_le (Nat.not_lt.mp hlt)
            have hrem0 : remainingEntries fs token = [] := by
              rw [remainingEntries, hseq0]
            refine ⟨acc, rfl, ?_, hacc⟩
            rw [hrem0, List.append_nil]
      | none =>
          have hsort := validTokenB_sort hv
          have hprov := validTokenB_provider hv hft
          by_cases hcur : token.partitionListingPageToken.getD 0 <
              (sortedDirs fs token.sortOrder).length
          · rw [listFilesLoop, hft]
            simp only []
            rw [listDirs_ok_lt fs token.sortOrder
              token.partitionListingPageToken hsort hcur]
            simp only []
            have hmem : (sortedDirs fs token.sortOrder).get
                ⟨token.partitionListingPageToken.getD 0, hcur⟩ ∈
                fs.partitions.map (·.name) :=
              mem_sortedDirs (List.get_mem _ _ _)
            have hread := readPartitionFiles_isSome_of_mem token.sortOrder
              token.filenamePrefix hmem hprov.1
            obtain ⟨files, hfiles⟩ := Option.isSome_iff_exists.mp hread
            rw [hfiles]
            simp only []
            have hseq : tokenPartitionSeq fs token =
                (sortedDirs fs token.sortOrder).get
                  ⟨token.partitionListingPageToken.getD 0, hcur⟩ ::
                (sortedDirs fs token.sortOrder).drop
                  (token.partitionListingPageToken.getD 0 + 1) := by
              rw [tokenPartitionSeq, hft]
              simp only []
              rw [List.drop_eq_getElem_cons hcur]
              simp [List.get_eq_getElem]
            have hrem : remainingEntries fs token =
                (partitionEntries fs token.sortOrder token.filenamePrefix
                  ((sortedDirs fs token.sortOrder).get
                    ⟨token.partitionListingPageToken.getD 0, hcur⟩)).drop
                      token.fileIndex ++
                (((sortedDirs fs token.sortOrder).drop
                    (token.partitionListingPageToken.getD 0 + 1)).map
                  (partitionEntries fs token.sortOrder
                    token.filenamePrefix)).flatten := by
              rw [remainingEntries, hseq]
            have hpe_drop : (partitionEntries fs token.sortOrder
                token.filenamePrefix
                ((sortedDirs fs token.sortOrder).get
                  ⟨token.partitionListingPageToken.getD 0, hcur⟩)).drop
                    token.fileIndex =
                (files.drop token.fileIndex).map
                  (mkEntry ((sortedDirs fs token.sortOrder).get
                    ⟨token.partitionListingPageToken.getD 0, hcur⟩)) := by
              rw [partitionEntries, hfiles, List.map_drop]
            by_cases hfit : acc.length +
                (files.drop token.fileIndex).length ≤ token.pageSize
            · rw [emitLoop_finished _ _ _ token.fileIndex acc hfit]
              simp only []
              by_cases hnext : token.partitionListingPageToken.getD 0 + 1 <
                  (sortedDirs fs token.sortOrder).length
              · rw [if_pos hnext]
                simp only []
                have hv' := validTokenB_provider_update 0
                  (token.partitionListingPageToken.getD 0 + 1) hv hft
                  (by rw [sortedDirs_length] at hnext; exact hnext)
                have hm' : tokenMeasure fs { token with
                    fileIndex := 0
                    partitionListingPageToken :=
                      some (token.partitionListingPageToken.getD 0 + 1) } ≤
                    fuel := by
                  rw [tokenMeasure] at hm
                  rw [hft] at hm
                  simp only [] at hm
                  rw [tokenMeasure, hft]
                  simp only []
                  rw [sortedDirs_length] at hcur
                  simp only [Option.getD_some]
                  omega
                have hacc' : (acc ++ (files.drop token.fileIndex).map
                    (mkEntry ((sortedDirs fs token.sortOrder).get
                      ⟨token.partitionListingPageToken.getD 0, hcur⟩))).length ≤
                    token.pageSize := by
                  rw [List.length_append, List.length_map]
                  exact hfit
                have hrem' : remainingEntries fs { token with
                    fileIndex := 0
                    partitionListingPageToken :=
                      some (token.partitionListingPageToken.getD 0 + 1) } =
                    (((sortedDirs fs token.sortOrder).drop
                        (token.partitionListingPageToken.getD 0 + 1)).map
                      (partitionEntries fs token.sortOrder
                        token.filenamePrefix)).flatten := by
                  rw [remainingEntries_fileIndex_zero rfl]
                  rw [tokenPartitionSeq, hft]
                  simp only [Option.getD_some]
                have hglue : (acc ++ (files.drop token.fileIndex).map
                    (mkEntry ((sortedDirs fs token.sortOrder).get
                      ⟨token.partitionListingPageToken.getD 0, hcur⟩))) ++
                    remainingEntries fs { token with
                      fileIndex := 0
                      partitionListingPageToken :=
                        some (token.partitionListingPageToken.getD 0 + 1) } =
                    acc ++ remainingEntries fs token := by
                  rw [hrem', hrem, hpe_drop, List.append_assoc]
                rcases ih _ _ hv' hm' hacc' with ⟨page, hres, hpage, hlen⟩ |
                  ⟨t', hres, hlen2, hremt, hcfg, hvt⟩
                · left
                  rw [hft] at hres
                  refine ⟨page, hres, ?_, ?_⟩
                  · rw [hpage, hglue]
                  · exact hlen
                · right
                  rw [hft] at hres
                  have hglue2 := hglue
                  rw [hft] at hglue2
                  refine ⟨t', ?_, ?_, ?_, hcfg, hvt⟩
                  · rw [hres, hglue2]
                  · rw [← hglue]; exact hlen2
                  · rw [hremt, hglue]
              · rw [if_neg hnext]
                simp only []
                left
                have hdropnil : (sortedDirs fs token.sortOrder).drop
                    (token.partitionListingPageToken.getD 0 + 1) = [] :=
                  List.drop_eq_nil_of_le (Nat.not_lt.mp hnext)
                refine ⟨_, rfl, ?_, ?_⟩
                · rw [hrem, hpe_drop, hdropnil]
                  simp
                · rw [List.length_append, List.length_map]
                  exact hfit
            · rw [Nat.not_le] at hfit
              obtain ⟨l₁, f, l₂, hsplit, hlen, hres⟩ :=
                emitLoop_stopped _ token.pageSize (files.drop token.fileIndex)
                  token.fileIndex acc hacc hfit
              rw [hres]
              simp only []
              have hremj : remainingEntries fs
                  { token with fileIndex := token.fileIndex + l₁.length } =
                  (partitionEntries fs token.sortOrder token.filenamePrefix
                    ((sortedDirs fs token.sortOrder).get
                      ⟨token.partitionListingPageToken.getD 0, hcur⟩)).drop
                        (token.fileIndex + l₁.length) ++
                  (((sortedDirs fs token.sortOrder).drop
                      (token.partitionListingPageToken.getD 0 + 1)).map
                    (partitionEntries fs token.sortOrder
                      token.filenamePrefix)).flatten := by
                have hseqj : tokenPartitionSeq fs
                    { token with fileIndex := token.fileIndex + l₁.length } =
                    (sortedDirs fs token.sortOrder).get
                      ⟨token.partitionListingPageToken.getD 0, hcur⟩ ::
                    (sortedDirs fs token.sortOrder).drop
                      (token.partitionListingPageToken.getD 0 + 1) := hseq
                rw [remainingEntries, hseqj]
              obtain ⟨htake, hlt2, hdrop2⟩ :=
                stopped_case_assembly hfiles hsplit hlen hrem hremj
              right
              refine ⟨{ token with fileIndex := token.fileIndex + l₁.length },
                ?_, hlt2, hdrop2, ⟨rfl, rfl, rfl⟩, ?_⟩
              · rw [htake, hft]
              · rw [validTokenB_fileIndex]; exact hv
          · rw [listFilesLoop, hft]
            simp only []
            rw [listDirs_ok_ge fs token.sortOrder
              token.partitionListingPageToken hsort (Nat.not_lt.mp hcur)]
            simp only []
            left
            have hseq0 : tokenPartitionSeq fs token = [] := by
              rw [tokenPartitionSeq, hft]
              simp only []
              exact List.drop_eq_nil_of_le (Nat.not_lt.mp hcur)
            have hrem0 : remainingEntries fs token = [] := by
              rw [remainingEntries, hseq0]
            refine ⟨acc, rfl, ?_, hacc⟩
            rw [hrem0, List.append_nil]

/-- The driver of repeated listing: call `ListFiles`, and while a
continuation token comes back, thread it into the next call, collecting
the pages.  A run ends successfully only when a call returns the empty
(`none`) next token. -/
def collectPages (fs : DirFS) (mdsPageSize : Nat) (config : ListingConfig) :
    Nat → Option PageTokenData →
    Except ListFilesErr (List (List FileEntry))
  | 0, _ => .error .outOfFuel
  | fuel + 1, tok =>
      match ListFiles fs mdsPageSize config tok with
      | .error e => .error e
      | .ok (page, none) => .ok [page]
      | .ok (page, some t') =>
          match collectPages fs mdsPageSize config fuel (some t') with
          | .error e => .error e
          | .ok pages => .ok (page :: pages)

/-- The loop fuel covers the token's measure. -/
theorem tokenMeasure_le_fuel (fs : DirFS) (token : PageTokenData) :
    tokenMeasure fs token ≤ listFilesFuel fs token := by
  cases hft : token.partitionFilterPageToken with
  | some pfpt =>
      rw [tokenMeasure, listFilesFuel, hft]
      simp only []
      omega
  | none =>
      rw [tokenMeasure, listFilesFuel, hft]
      simp only []
      omega

/-- Starting from a token, enough rounds of `ListFiles` succeed, the
pages flatten to exactly the outstanding entries, every page but the
last is exactly full, and no page exceeds the page size. -/
theorem collectPages_char (fs : DirFS) (mdsPageSize : Nat)
    (config : ListingConfig) :
    ∀ (n : Nat) (token : PageTokenData),
      validTokenB fs token = true →
      (remainingEntries fs token).length ≤ n * token.pageSize →
      ∃ pages,
        collectPages fs mdsPageSize config (n + 1) (some token) = .ok pages ∧
        pages ≠ [] ∧
        pages.flatten = remainingEntries fs token ∧
        (∀ p ∈ pages.dropLast, p.length = token.pageSize) ∧
        (∀ p ∈ pages, p.length ≤ token.pageSize) := by
  intro n
  induction n with
  | zero =>
      intro token hv hlen
      rw [Nat.zero_mul, Nat.le_zero, List.length_eq_zero] at hlen
      rcases listFilesLoop_char fs (listFilesFuel fs token) token [] hv
          (tokenMeasure_le_fuel fs token) (by simp) with
        ⟨page, hres, hpage, hple⟩ | ⟨t', hres2, hlt, hremt, hcfg, hvt⟩
      · refine ⟨[page], ?_, by simp, ?_, by simp, ?_⟩
        · rw [collectPages]
          have hlf : ListFiles fs mdsPageSize config (some token) =
              listFilesLoop fs (listFilesFuel fs token) token [] := rfl
          rw [hlf, hres]
        · simp [hpage, hlen]
        · intro p hp
          rw [List.mem_singleton] at hp
          rw [hp]
          exact hple
      · exfalso
        rw [hlen] at hlt
        simp at hlt
  | succ n ih =>
      intro token hv hlen
      rcases listFilesLoop_char fs (listFilesFuel fs token) token [] hv
          (tokenMeasure_le_fuel fs token) (by simp) with
        ⟨page, hres, hpage, hple⟩ | ⟨t', hres2, hlt, hremt, hcfg, hvt⟩
      · refine ⟨[page], ?_, by simp, ?_, by simp, ?_⟩
        · rw [collectPages]
          have hlf : ListFiles fs mdsPageSize config (some token) =
              listFilesLoop fs (listFilesFuel fs token) token [] := rfl
          rw [hlf, hres]
        · simp [hpage]
        · intro p hp
          rw [List.mem_singleton] at hp
          rw [hp]
          exact hple
      · rw [List.nil_append] at hres2 hlt hremt
        have hps : t'.pageSize = token.pageSize := hcfg.2.1
        have hlen' : (remainingEntries fs t').length ≤ n * t'.pageSize := by
          rw [hremt, List.length_drop, hps]
          have hmul : (n + 1) * token.pageSize =
              n * token.pageSize + token.pageSize := Nat.succ_mul n _
          omega
        obtain ⟨pages, hcp, hne, hflat, hdropl, hall⟩ := ih t' hvt hlen'
        refine ⟨(remainingEntries fs token).take token.pageSize :: pages,
          ?_, by simp, ?_, ?_, ?_⟩
        · rw [collectPages]
          have hlf : ListFiles fs mdsPageSize config (some token) =
              listFilesLoop fs (listFilesFuel fs token) token [] := rfl
          rw [hlf, hres2]
          simp only []
          rw [hcp]
        · rw [List.flatten_cons, hflat, hremt, List.take_append_drop]
        · intro p hp
          cases pages with
          | nil => exact absurd rfl hne
          | cons q qs =>
              have hdl : ((remainingEntries fs token).take token.pageSize ::
                  q :: qs).dropLast =
                  (remainingEntries fs token).take token.pageSize ::
                    (q :: qs).dropLast := rfl
              rw [hdl, List.mem_cons] at hp
              rcases hp with hp | hp
              · rw [hp, List.length_take]
                omega
              · rw [← hps]
                exact hdropl p hp
        · intro p hp
          rw [List.mem_cons] at hp
          rcases hp with hp | hp
          · rw [hp, List.length_take]
            omega
          · rw [← hps]
            exact hall p hp

/-- The outstanding entries of the initial token are the configured
complete entry list. -/
theorem remainingEntries_initToken (fs : DirFS) (mdsPageSize : Nat)
    (config : ListingConfig) :
    remainingEntries fs (initToken mdsPageSize config) =
      allEntries fs config := by
  rw [remainingEntries_fileIndex_zero rfl, allEntries]
  by_cases h : 0 < config.filterPartitions.length
  · rw [tokenPartitionSeq]
    simp only [initToken, if_pos h]
    rw [List.drop_zero]
  · rw [tokenPartitionSeq]
    simp only [initToken, if_neg h]
    rw [Option.getD_none, List.drop_zero]

/-- An empty page token means an empty `collectPages` cursor starts at
the initial token. -/
theorem collectPages_none (fs : DirFS) (mdsPageSize : Nat)
    (config : ListingConfig) (n : Nat) :
    collectPages fs mdsPageSize config (n + 1) none =
      collectPages fs mdsPageSize config (n + 1)
        (some (initToken mdsPageSize config)) := rfl

/-- C2 (confirmed): from the empty page token, with every partition in
scope readable, a valid sort order and a positive effective page size,
repeatedly calling `ListFiles` and threading each returned token into
the next call succeeds, the collected pages concatenate to exactly the
complete entry list in the configured partition-then-filename order
(each entry exactly once), every page before the last holds exactly
`pageSize` entries, no page exceeds `pageSize`, and the run terminates
because the final call returns the empty next token. -/
theorem c2_pagination_completeness (fs : DirFS) (mdsPageSize : Nat)
    (config : ListingConfig)
    (hv : validTokenB fs (initToken mdsPageSize config) = true) :
    ∃ (rounds : Nat) (pages : List (List FileEntry)),
      collectPages fs mdsPageSize config rounds none = .ok pages ∧
      pages.flatten = allEntries fs config ∧
      (∀ p ∈ pages.dropLast,
        p.length = (initToken mdsPageSize config).pageSize) ∧
      (∀ p ∈ pages, p.length ≤ (initToken mdsPageSize config).pageSize) := by
  have hps := validTokenB_pageSize hv
  have hlen : (remainingEntries fs (initToken mdsPageSize config)).length ≤
      (remainingEntries fs (initToken mdsPageSize config)).length *
        (initToken mdsPageSize config).pageSize :=
    Nat.le_mul_of_pos_right _ hps
  obtain ⟨pages, hcp, _, hflat, hdropl, hall⟩ :=
    collectPages_char fs mdsPageSize config
      (remainingEntries fs (initToken mdsPageSize config)).length
      (initToken mdsPageSize config) hv hlen
  refine ⟨(remainingEntries fs (initToken mdsPageSize config)).length + 1,
    pages, ?_, ?_, hdropl, hall⟩
  · rw [collectPages_none]
    exact hcp
  · rw [hflat, remainingEntries_initToken]

/-- Witness for C2: one partition with three files, page size two — the
listing paginates into a full page of two and a final page of one. -/
theorem c2_witness :
    validTokenB ⟨[⟨"p", some ["a.json", "b.json", "c.json"]⟩]⟩
      (initToken 2 ⟨"asc", 2, [], ""⟩) = true ∧
    ∃ (rounds : Nat) (pages : List (List FileEntry)),
      collectPages ⟨[⟨"p", some ["a.json", "b.json", "c.json"]⟩]⟩ 2
          ⟨"asc", 2, [], ""⟩ rounds none = .ok pages ∧
      pages.flatten = allEntries ⟨[⟨"p", some ["a.json", "b.json", "c.json"]⟩]⟩
        ⟨"asc", 2, [], ""⟩ ∧
      (∀ p ∈ pages.dropLast,
        p.length = (initToken 2 ⟨"asc", 2, [], ""⟩).pageSize) ∧
      (∀ p ∈ pages, p.length ≤ (initToken 2 ⟨"asc", 2, [], ""⟩).pageSize) :=
  ⟨by decide, c2_pagination_completeness
    ⟨[⟨"p", some ["a.json", "b.json", "c.json"]⟩]⟩ 2 ⟨"asc", 2, [], ""⟩
    (by decide)⟩

/-- `listDirs` never fails when the lower-cased sort order is asc or
desc. -/
theorem listDirs_ne_error (fs : DirFS) (sortOrder : String)
    (pageToken : Option Nat) (pageSize : Nat)
    (hsort : lowerStr sortOrder = SortOrderAscending ∨
      lowerStr sortOrder = SortOrderDescending) (e : ListDirsErr) :
    listDirs fs sortOrder pageToken pageSize ≠ .error e := by
  rcases hsort with h | h <;> rw [listDirs, h] <;>
    simp [SortOrderAscending, SortOrderDescending]

/-- With a valid (asc/desc, case-insensitively) sort order in the token,
the listing loop never surfaces the partition-provider error — in
particular never the invalid-sort-order error. -/
theorem listFilesLoop_no_sort_error (fs : DirFS) :
    ∀ (fuel : Nat) (token : PageTokenData) (acc : List FileEntry)
      (e : ListDirsErr),
      (lowerStr token.sortOrder = SortOrderAscending ∨
        lowerStr token.sortOrder = SortOrderDescending) →
      listFilesLoop fs fuel token acc ≠ .error (.listPartitionsFailed e) := by
  intro fuel
  induction fuel with
  | zero =>
      intro token acc e hs h
      rw [listFilesLoop] at h
      simp at h
  | succ fuel ih =>
      intro token acc e hs h
      rw [listFilesLoop] at h
      cases hft : token.partitionFilterPageToken with
      | some pfpt =>
          rw [hft] at h
          simp only [] at h
          by_cases hlt : pfpt.partitionIndex < pfpt.filterPartitions.length
          · rw [dif_pos hlt] at h
            cases hread : readPartitionFiles fs
                (pfpt.filterPartitions.get ⟨pfpt.partitionIndex, hlt⟩)
                token.sortOrder token.filenamePrefix with
            | none =>
                rw [hread] at h
                simp only [] at h
                exact ih { token with
                  fileIndex := 0
                  partitionFilterPageToken :=
                    some ⟨pfpt.partitionIndex + 2, pfpt.filterPartitions⟩ }
                  acc e hs h
            | some files =>
                rw [hread] at h
                simp only [] at h
                cases hemit : emitLoop
                    (pfpt.filterPartitions.get ⟨pfpt.partitionIndex, hlt⟩)
                    token.pageSize (files.drop token.fileIndex)
                    token.fileIndex acc with
                | stopped entries j =>
                    rw [hemit] at h
                    simp at h
                | finished acc2 =>
                    rw [hemit] at h
                    simp only [] at h
                    exact ih { token with
                      fileIndex := 0
                      partitionFilterPageToken :=
                        some ⟨pfpt.partitionIndex + 1, pfpt.filterPartitions⟩ }
                      acc2 e hs h
          · rw [dif_neg hlt] at h
            simp at h
      | none =>
          rw [hft] at h
          simp only [] at h
          cases hd : listDirs fs token.sortOrder
              token.partitionListingPageToken 1 with
          | error e2 =>
              exact listDirs_ne_error fs token.sortOrder
                token.partitionListingPageToken 1 hs e2 hd
          | ok r =>
              rw [hd] at h
              obtain ⟨names, nextTok⟩ := r
              cases names with
              | nil => simp at h
              | cons partitionName rest =>
                  simp only [] at h
                  cases hread : readPartitionFiles fs partitionName
                      token.sortOrder token.filenamePrefix with
                  | none =>
                      rw [hread] at h
                      simp at h
                  | some files =>
                      rw [hread] at h
                      simp only [] at h
                      cases hemit : emitLoop partitionName token.pageSize
                          (files.drop token.fileIndex) token.fileIndex acc with
                      | stopped entries j =>
                          rw [hemit] at h
                          simp at h
                      | finished acc2 =>
                          rw [hemit] at h
                          simp only [] at h
                          cases nextTok with
                          | none => simp at h
                          | some nt =>
                              simp only [] at h
                              rw [← hft] at h
                              exact ih { token with
                                fileIndex := 0
                                partitionListingPageToken := some nt }
                                acc2 e hs h

/-- C10 (confirmed): with the empty page token, an empty configured sort
order makes `ListFiles` behave exactly as the ascending sort order (it
is defaulted, not rejected); and whenever `ListFiles` surfaces the
partition-provider (invalid-sort-order) error, the configured sort
order was non-empty and, lower-cased, neither ascending nor
descending. -/
theorem c10_empty_sort_defaults_to_ascending (fs : DirFS)
    (mdsPageSize : Nat) (config : ListingConfig) :
    (config.sortOrder = "" →
      ListFiles fs mdsPageSize config none =
        ListFiles fs mdsPageSize
          { config with sortOrder := SortOrderAscending } none) ∧
    (∀ e, ListFiles fs mdsPageSize config none =
        .error (.listPartitionsFailed e) →
      config.sortOrder ≠ "" ∧
      ¬(lowerStr config.sortOrder = SortOrderAscending ∨
        lowerStr config.sortOrder = SortOrderDescending)) := by
  constructor
  · intro h
    have htok : initToken mdsPageSize config =
        initToken mdsPageSize
          { config with sortOrder := SortOrderAscending } := by
      simp [initToken, h, SortOrderAscending]
    show listFilesLoop fs
        (listFilesFuel fs (initToken mdsPageSize config))
        (initToken mdsPageSize config) [] =
      listFilesLoop fs
        (listFilesFuel fs (initToken mdsPageSize
          { config with sortOrder := SortOrderAscending }))
        (initToken mdsPageSize
          { config with sortOrder := SortOrderAscending }) []
    rw [htok]
  · intro e h
    have hloop : listFilesLoop fs
        (listFilesFuel fs (initToken mdsPageSize config))
        (initToken mdsPageSize config) [] =
        .error (.listPartitionsFailed e) := h
    have hsort : ¬(lowerStr (initToken mdsPageSize config).sortOrder =
          SortOrderAscending ∨
        lowerStr (initToken mdsPageSize config).sortOrder =
          SortOrderDescending) := by
      intro hs
      exact listFilesLoop_no_sort_error fs _ _ _ e hs hloop
    have hne : config.sortOrder ≠ "" := by
      intro hz
      apply hsort
      left
      show lowerStr (if config.sortOrder = "" then SortOrderAscending
        else config.sortOrder) = SortOrderAscending
      rw [if_pos hz]
      decide
    have hproj : (initToken mdsPageSize config).sortOrder =
        config.sortOrder := by
      show (if config.sortOrder = "" then SortOrderAscending
        else config.sortOrder) = config.sortOrder
      rw [if_neg hne]
    rw [hproj] at hsort
    exact ⟨hne, hsort⟩

/-- Witness for C10: on a one-partition store, the empty sort order
lists identically to the explicit ascending sort order. -/
theorem c10_witness :
    ListFiles ⟨[⟨"p", some ["a.json"]⟩]⟩ 5 ⟨"", 5, [], ""⟩ none =
      ListFiles ⟨[⟨"p", some ["a.json"]⟩]⟩ 5
        { (⟨"", 5, [], ""⟩ : ListingConfig) with
          sortOrder := SortOrderAscending } none :=
  (c10_empty_sort_defaults_to_ascending ⟨[⟨"p", some ["a.json"]⟩]⟩ 5
    ⟨"", 5, [], ""⟩).1 rfl

end Mapstore
